import Mathlib

/-!
Verification of `BlueInstruction/DragonForge` (`src/scripts/patcher.py`).

The program is a batch source patcher.  Its patch rules are Python regexes of
exactly one shape, produced by `mk_asgn(var)`:

    (\b<re.escape(var)>\s*=\s*)([^;]+);        replacement: \g<1><VALUE>;

plus one hand-written rule `(SharedSystemMemory\s*=\s*)[^;]+;` of the same
shape without the leading `\b` (and without capturing group 2, which the
replacement never references).  We embed the semantics of `re.sub` for this
pattern shape over `List Char`:

* `\b` before the variable name: every rule name starts with a word character,
  so the boundary holds exactly when the preceding character is not a word
  character (or the match is at the start of the text).
* `re.escape` makes the name literal; the model stores the literal name and
  matches it character by character.
* `\s*=\s*`: a maximal whitespace run, then `=`, then a second whitespace run.
  The second run is greedy but backtracks one character when the value would
  otherwise be empty (`[^;]+` needs at least one character), which gives
  `m = min (spaceRun rest) (rest.length - 1)` characters of whitespace inside
  group 1.
* `([^;]+);`: the (greedy) value runs to the first `;` after the `=`; the
  match requires that terminating `;`.
* `re.sub` scans left to right, replacing non-overlapping matches and
  continuing after each replacement; `re.MULTILINE` only affects `^`/`$`,
  which the patterns do not contain.
-/

set_option linter.unusedVariables false

namespace Patcher

/-- Python `\w` restricted to ASCII: letters, digits and underscore. -/
def pyIsWord (c : Char) : Bool := c.isAlpha || c.isDigit || c = '_'

/-- Python `\s` restricted to ASCII: space, tab, newline, carriage return,
vertical tab and form feed. -/
def pyIsSpace (c : Char) : Bool :=
  c = ' ' || c = '\t' || c = '\n' || c = '\r' || c = '\x0b' || c = '\x0c'

/-- Length of the maximal leading whitespace run — the text a greedy `\s*`
consumes before a non-whitespace character. -/
def spaceRun : List Char → Nat
  | [] => 0
  | c :: cs => if pyIsSpace c then spaceRun cs + 1 else 0

/-- Split a text at its first `';'`:  `findSemi l = some (b, a)` exactly when
`l = b ++ ';' :: a` with `b` free of `';'`.  This is how far the greedy
`[^;]+` can reach before the required literal `;`. -/
def findSemi : List Char → Option (List Char × List Char)
  | [] => none
  | c :: cs =>
    if c = ';' then some ([], cs)
    else (findSemi cs).map (fun p => (c :: p.1, p.2))

/-- The match pattern produced for one rule: `wb` records whether the pattern
starts with `\b`, `name` is the (escaped, hence literal) variable name. -/
structure AsgnPat where
  wb : Bool
  name : List Char
  deriving DecidableEq, Repr

/-- `mk_asgn` from src/scripts/patcher.py: `rf'(\b{re.escape(var)}\s*=\s*)([^;]+);'`.
`re.escape` makes every special character of `var` literal, which the model
expresses by storing the name itself. -/
def mk_asgn (var : List Char) : AsgnPat := ⟨true, var⟩

/-- One patch rule, the `PT = Tuple[str, str, str]` of the source: a match
pattern, the literal text `value` that the replacement template
`\g<1><value>;` inserts after group 1, and a diagnostic identifier. -/
structure Rule where
  pat : AsgnPat
  value : List Char
  id : String
  deriving DecidableEq, Repr

/-- Attempt to match the pattern `name\s*=\s*([^;]+);` at the head of `s`
(the `\b` check lives in the scanner, which knows the preceding character).
On success returns `(group1, group2, rest-after-match)` where
`group1 = name ++ ws1 ++ '=' :: wsm` and `group2` is the value text up to,
not including, the terminating `;`. -/
def tryMatchFull (n : List Char) (s : List Char) : Option (List Char × List Char × List Char) :=
  if n.isPrefixOf s then
    match (s.drop n.length).drop (spaceRun (s.drop n.length)) with
    | '=' :: rest =>
      match findSemi rest with
      | some (before, after) =>
        if before.isEmpty then none
        else
          some (n ++ (s.drop n.length).take (spaceRun (s.drop n.length)) ++
              '=' :: before.take (min (spaceRun before) (before.length - 1)),
            before.drop (min (spaceRun before) (before.length - 1)), after)
      | none => none
    | _ => none
  else none

lemma spaceRun_le (l : List Char) : spaceRun l ≤ l.length := by
  induction l with
  | nil => simp [spaceRun]
  | cons c cs ih =>
    simp only [spaceRun, List.length_cons]
    split
    · omega
    · omega

lemma mem_take_spaceRun {l : List Char} {m : Nat} (hm : m ≤ spaceRun l) :
    ∀ c ∈ l.take m, pyIsSpace c = true := by
  induction l generalizing m with
  | nil => simp
  | cons c cs ih =>
    simp only [spaceRun] at hm
    split at hm
    · match m with
      | 0 => simp
      | m' + 1 =>
        intro d hd
        simp only [List.take_succ_cons, List.mem_cons] at hd
        rcases hd with rfl | hd
        · assumption
        · exact ih (by omega) d hd
    · interval_cases m
      simp

lemma findSemi_eq_some {l b a : List Char} (h : findSemi l = some (b, a)) :
    l = b ++ ';' :: a ∧ ';' ∉ b := by
  induction l generalizing b a with
  | nil => simp [findSemi] at h
  | cons c cs ih =>
    by_cases hc : c = ';'
    · subst hc
      simp only [findSemi, if_pos rfl, Option.some.injEq, Prod.mk.injEq] at h
      obtain ⟨rfl, rfl⟩ := h
      simp
    · simp only [findSemi, if_neg hc, Option.map_eq_some'] at h
      obtain ⟨⟨b', a'⟩, hp, heq⟩ := h
      simp only [Prod.mk.injEq] at heq
      obtain ⟨hb, ha⟩ := heq
      obtain ⟨e1, e2⟩ := ih hp
      subst ha
      subst e1
      constructor
      · rw [← hb]; simp
      · rw [← hb]
        simp only [List.mem_cons, not_or]
        exact ⟨fun h => hc h.symm, e2⟩

lemma findSemi_of_append {b a : List Char} (hb : ';' ∉ b) :
    findSemi (b ++ ';' :: a) = some (b, a) := by
  induction b with
  | nil => simp [findSemi]
  | cons c cs ih =>
    simp only [List.mem_cons, not_or] at hb
    have hc : ¬(c = ';') := fun h => hb.1 h.symm
    simp [findSemi, hc, ih hb.2]

lemma findSemi_eq_none {l : List Char} (h : ';' ∉ l) : findSemi l = none := by
  induction l with
  | nil => rfl
  | cons c cs ih =>
    simp only [List.mem_cons, not_or] at h
    have hc : ¬(c = ';') := fun e => h.1 e.symm
    simp [findSemi, hc, ih h.2]

/-- Full characterization of a successful match: group 1 is the name, the
whitespace, the `=` and the backtracking-adjusted second whitespace run;
group 2 is nonempty, `;`-free, and runs up to the terminating `;`. -/
lemma tryMatchFull_eq_some {n s g1 g2 after : List Char}
    (h : tryMatchFull n s = some (g1, g2, after)) :
    ∃ ws1 wsm, (∀ c ∈ ws1, pyIsSpace c = true) ∧ (∀ c ∈ wsm, pyIsSpace c = true) ∧
      g1 = n ++ ws1 ++ '=' :: wsm ∧ g2 ≠ [] ∧ ';' ∉ g2 ∧ s = g1 ++ g2 ++ ';' :: after := by
  unfold tryMatchFull at h
  by_cases hp : n.isPrefixOf s
  · simp only [hp, if_true] at h
    obtain ⟨t0, ht0⟩ := List.isPrefixOf_iff_prefix.mp hp
    have hdrop : s.drop n.length = t0 := by rw [← ht0]; simp
    rw [hdrop] at h
    rcases hd : t0.drop (spaceRun t0) with _ | ⟨c, rest⟩
    · rw [hd] at h; simp at h
    · rw [hd] at h
      by_cases hc : c = '='
      · subst hc
        rcases hf : findSemi rest with _ | ⟨b2, a2⟩
        · simp [hf] at h
        · simp only [hf] at h
          by_cases hb : b2.isEmpty
          · simp [hb] at h
          · simp only [hb, Bool.false_eq_true, if_false, Option.some.injEq,
              Prod.mk.injEq] at h
            obtain ⟨hg1, hg2, haft⟩ := h
            obtain ⟨hrest, hnosemi⟩ := findSemi_eq_some hf
            have hbne : b2 ≠ [] := by simpa [List.isEmpty_iff] using hb
            have hblen : 0 < b2.length := List.length_pos.mpr hbne
            set m := min (spaceRun b2) (b2.length - 1) with hm
            have hmlt : m < b2.length := by omega
            subst hg1
            subst hg2
            subst haft
            refine ⟨t0.take (spaceRun t0), b2.take m, ?_, ?_, rfl, ?_, ?_, ?_⟩
            · exact mem_take_spaceRun le_rfl
            · exact mem_take_spaceRun (by omega)
            · simp [List.drop_eq_nil_iff]
              omega
            · intro hmem
              exact hnosemi (List.mem_of_mem_drop hmem)
            · have e1 : t0 = t0.take (spaceRun t0) ++ '=' :: rest := by
                conv_lhs => rw [← List.take_append_drop (spaceRun t0) t0]
                rw [hd]
              have e2 : b2 = b2.take m ++ b2.drop m := (List.take_append_drop m b2).symm
              calc s = n ++ t0 := ht0.symm
                _ = n ++ (t0.take (spaceRun t0) ++ '=' :: rest) := congrArg _ e1
                _ = n ++ (t0.take (spaceRun t0) ++ '=' :: (b2 ++ ';' :: a2)) := by rw [hrest]
                _ = n ++ (t0.take (spaceRun t0) ++
                      '=' :: ((b2.take m ++ b2.drop m) ++ ';' :: a2)) := by
                    conv_lhs => rw [e2]
                _ = (n ++ t0.take (spaceRun t0) ++ '=' :: b2.take m) ++
                      b2.drop m ++ ';' :: a2 := by simp
      · simp [hc] at h
  · simp [hp] at h

lemma tryMatchFull_after_length {n s g1 g2 after : List Char}
    (h : tryMatchFull n s = some (g1, g2, after)) : after.length + 1 ≤ s.length := by
  obtain ⟨ws1, wsm, _, _, _, hg2, _, hs⟩ := tryMatchFull_eq_some h
  have hpos : 0 < g2.length := List.length_pos.mpr hg2
  rw [hs]
  simp only [List.length_append, List.length_cons]
  omega

/-- One application of `re.sub(pattern, repl, content)` for one rule: scan
left to right, testing the boundary (`prevW` holds when the previous character
is a word character) and the pattern at each position; on a match, emit
`group1 ++ value ++ ';'` and continue after the match.  The `fuel` argument
only makes the recursion structural (and hence executable); it never runs out
when it starts at or above the length of the text. -/
def pySubGo (r : Rule) : Nat → Bool → List Char → List Char
  | _, _, [] => []
  | 0, _, s => s
  | fuel + 1, prevW, c :: cs =>
    if r.pat.wb && prevW then c :: pySubGo r fuel (pyIsWord c) cs
    else
      match tryMatchFull r.pat.name (c :: cs) with
      | some (g1, _g2, after) => g1 ++ r.value ++ ';' :: pySubGo r fuel false after
      | none => c :: pySubGo r fuel (pyIsWord c) cs

lemma pySubGo_congr (r : Rule) {f1 f2 : Nat} {s : List Char} (h1 : s.length ≤ f1)
    (h2 : s.length ≤ f2) (prevW : Bool) : pySubGo r f1 prevW s = pySubGo r f2 prevW s := by
  induction f1 generalizing f2 s prevW with
  | zero =>
    have : s = [] := by
      cases s
      · rfl
      · simp at h1
    subst this
    cases f2 <;> rfl
  | succ f1' ih =>
    cases s with
    | nil => cases f2 <;> rfl
    | cons c cs =>
      match f2 with
      | 0 => simp at h2
      | f2' + 1 =>
        simp only [pySubGo]
        simp only [List.length_cons] at h1 h2
        by_cases hskip : (r.pat.wb && prevW) = true
        · simp only [hskip, if_true]
          rw [@ih f2' cs (by omega) (by omega)]
        · simp only [hskip, Bool.false_eq_true, if_false]
          rcases hm : tryMatchFull r.pat.name (c :: cs) with _ | ⟨g1, g2, after⟩
          · rw [@ih f2' cs (by omega) (by omega)]
          · have := tryMatchFull_after_length hm
            simp only [List.length_cons] at this
            dsimp only
            rw [@ih f2' after (by omega) (by omega)]

/-- `re.sub(pattern, repl, content, flags=re.MULTILINE)` for one rule; the
scan starts at the beginning of the text, where no previous character exists. -/
def subRule (r : Rule) (content : List Char) : List Char :=
  pySubGo r content.length false content

/-- The scanner on the empty text. -/
lemma pySub_nil (r : Rule) (f : Nat) (w : Bool) : pySubGo r f w [] = [] := by
  cases f <;> rfl

/-- The scanner when the word boundary blocks a match attempt. -/
lemma pySub_skip {r : Rule} {w : Bool} (hw : (r.pat.wb && w) = true) (c : Char)
    (cs : List Char) {f : Nat} (hf : cs.length < f) :
    pySubGo r f w (c :: cs) = c :: pySubGo r cs.length (pyIsWord c) cs := by
  match f, hf with
  | f' + 1, hf =>
    simp only [pySubGo, hw, if_true]
    rw [@pySubGo_congr r f' cs.length cs (by omega) le_rfl]

/-- The scanner when a match is found at the current position. -/
lemma pySub_match {r : Rule} {w : Bool} (hw : (r.pat.wb && w) ≠ true) {c : Char}
    {cs g1 g2 after : List Char} (hm : tryMatchFull r.pat.name (c :: cs) = some (g1, g2, after))
    {f : Nat} (hf : cs.length < f) :
    pySubGo r f w (c :: cs) = g1 ++ r.value ++ ';' :: pySubGo r after.length false after := by
  match f, hf with
  | f' + 1, hf =>
    simp only [pySubGo, hw, Bool.false_eq_true, if_false]
    rw [hm]
    have := tryMatchFull_after_length hm
    simp only [List.length_cons] at this
    dsimp only
    rw [@pySubGo_congr r f' after.length after (by omega) le_rfl]

/-- The scanner when no match starts at the current position. -/
lemma pySub_none {r : Rule} {w : Bool} (hw : (r.pat.wb && w) ≠ true) {c : Char}
    {cs : List Char} (hm : tryMatchFull r.pat.name (c :: cs) = none) {f : Nat}
    (hf : cs.length < f) :
    pySubGo r f w (c :: cs) = c :: pySubGo r cs.length (pyIsWord c) cs := by
  match f, hf with
  | f' + 1, hf =>
    simp only [pySubGo, hw, Bool.false_eq_true, if_false]
    rw [hm]
    dsimp only
    rw [@pySubGo_congr r f' cs.length cs (by omega) le_rfl]

/-- `HighPatcher._apply_content`: fold the rule list over the content, each
rule applied to the cumulative result of the previous ones. -/
def apply_content (content : List Char) (patches : List Rule) : List Char :=
  patches.foldl (fun c r => subRule r c) content

/-! The rule data of src/scripts/patcher.py, lines 20–82. -/

/-- GPU spoofing rules (`GPU_P`). -/
def GPU_P : List Rule :=
  [ ⟨mk_asgn "adapter_id.vendor_id".data, "0x1002".data, "gpu_vid"⟩,
    ⟨mk_asgn "adapter_id.device_id".data, "0x73DF".data, "gpu_did"⟩,
    ⟨⟨false, "SharedSystemMemory".data⟩, "16384ULL * 1024 * 1024".data, "gpu_mem"⟩ ]

/-- Shader model rules (`SM_P`). -/
def SM_P : List Rule :=
  [ ⟨mk_asgn "data->HighestShaderModel".data, "D3D_SHADER_MODEL_6_7".data, "sm"⟩,
    ⟨mk_asgn "info.HighestShaderModel".data, "D3D_SHADER_MODEL_6_7".data, "sm_info"⟩ ]

/-- Wave op rules (`WV_P`). -/
def WV_P : List Rule :=
  [ ⟨mk_asgn "options1.WaveOps".data, "TRUE".data, "wv0"⟩,
    ⟨mk_asgn "options1.WaveLaneCountMin".data, "32".data, "wv1"⟩,
    ⟨mk_asgn "options1.WaveLaneCountMax".data, "128".data, "wv2"⟩ ]

/-- Resource and tiled-resource rules (`RB_P`). -/
def RB_P : List Rule :=
  [ ⟨mk_asgn "options.ResourceBindingTier".data, "D3D12_RESOURCE_BINDING_TIER_3".data, "rb0"⟩,
    ⟨mk_asgn "options.TiledResourcesTier".data, "D3D12_TILED_RESOURCES_TIER_4".data, "rb1"⟩,
    ⟨mk_asgn "options.ResourceHeapTier".data, "D3D12_RESOURCE_HEAP_TIER_2".data, "rb2"⟩ ]

/-- Shader op rules (`SO_P`). -/
def SO_P : List Rule :=
  [ ⟨mk_asgn "options.DoublePrecisionFloatShaderOps".data, "TRUE".data, "so0"⟩,
    ⟨mk_asgn "options1.Int64ShaderOps".data, "TRUE".data, "so1"⟩,
    ⟨mk_asgn "options4.Native16BitShaderOpsSupported".data, "TRUE".data, "so2"⟩ ]

/-- Mesh shader rules (`MS_P`). -/
def MS_P : List Rule :=
  [ ⟨mk_asgn "options7.MeshShaderTier".data, "D3D12_MESH_SHADER_TIER_1".data, "ms0"⟩,
    ⟨mk_asgn "options12.EnhancedBarriersSupported".data, "TRUE".data, "ms7"⟩ ]

/-- Ray tracing rules (`RT_P`). -/
def RT_P : List Rule :=
  [ ⟨mk_asgn "options5.RaytracingTier".data, "D3D12_RAYTRACING_TIER_1_1".data, "rt0"⟩,
    ⟨mk_asgn "options5.RenderPassesTier".data, "D3D12_RENDER_PASS_TIER_2".data, "rt1"⟩,
    ⟨mk_asgn "options6.VariableShadingRateTier".data, "D3D12_VARIABLE_SHADING_RATE_TIER_2".data, "rt2"⟩,
    ⟨mk_asgn "options6.ShadingRateImageTileSize".data, "8".data, "rt3"⟩,
    ⟨mk_asgn "options6.BackgroundProcessingSupported".data, "TRUE".data, "rt4"⟩ ]

/-- Sampler feedback rules (`SF_P`). -/
def SF_P : List Rule :=
  [ ⟨mk_asgn "options7.SamplerFeedbackTier".data, "D3D12_SAMPLER_FEEDBACK_TIER_1_0".data, "sf0"⟩,
    ⟨mk_asgn "options2.DepthBoundsTestSupported".data, "TRUE".data, "sf1"⟩ ]

/-- Texture rules (`TX_P`). -/
def TX_P : List Rule :=
  [ ⟨mk_asgn "options8.UnalignedBlockTexturesSupported".data, "TRUE".data, "tx0"⟩ ]

/-- Triangle fan rules (`RN_P`). -/
def RN_P : List Rule :=
  [ ⟨mk_asgn "options15.TriangleFanSupported".data, "TRUE".data, "rn4"⟩ ]

/-- Lines 109–112 of `HighPatcher.apply`: the `'high'` profile resolves to the
concatenation of every category, anything else falls back to `GPU_P`. -/
def resolveProfile (profile : String) : List Rule :=
  if profile = "high" then
    GPU_P ++ SM_P ++ WV_P ++ RB_P ++ SO_P ++ MS_P ++ RT_P ++ SF_P ++ TX_P ++ RN_P
  else GPU_P

/-- The full rule list of the `'high'` profile. -/
def highRules : List Rule := resolveProfile "high"

example : (highRules.map Rule.id).length = 25 := by decide

example :
    subRule ⟨mk_asgn "adapter_id.vendor_id".data, "0x1002".data, "gpu_vid"⟩
      "  adapter_id.vendor_id = 0x5678;\n".data = "  adapter_id.vendor_id = 0x1002;\n".data := by
  decide

example :
    subRule ⟨mk_asgn "adapter_id.vendor_id".data, "0x1002".data, "gpu_vid"⟩
      "xadapter_id.vendor_id = 0x5678;\n".data = "xadapter_id.vendor_id = 0x5678;\n".data := by
  decide

/-!  Segment view of the scan.  A match of `name\s*=\s*([^;]+);` always ends at
the first `;` after its `=`, so `re.sub` acts independently on the `;`-separated
segments of the text: within a segment it can replace at most once, and the
final segment (with no closing `;`) can never host a match.  -/

/-- Segment-level match attempt at the head of a `;`-free segment that is
followed by `;` in the full text: `[^;]+` reaches exactly the end of the
segment, so the remainder after the match is empty and only the groups are
returned. -/
def segTry (n : List Char) (s : List Char) : Option (List Char × List Char) :=
  if n.isPrefixOf s then
    match (s.drop n.length).drop (spaceRun (s.drop n.length)) with
    | '=' :: rest =>
      if rest.isEmpty then none
      else
        some (n ++ (s.drop n.length).take (spaceRun (s.drop n.length)) ++
            '=' :: rest.take (min (spaceRun rest) (rest.length - 1)),
          rest.drop (min (spaceRun rest) (rest.length - 1)))
    | _ => none
  else none

/-- The scan restricted to one `;`-free segment. -/
def segGo (r : Rule) (prevW : Bool) : List Char → List Char
  | [] => []
  | c :: cs =>
    if r.pat.wb && prevW then c :: segGo r (pyIsWord c) cs
    else
      match segTry r.pat.name (c :: cs) with
      | some (g1, _g2) => g1 ++ r.value
      | none => c :: segGo r (pyIsWord c) cs

lemma spaceRun_append (a b : List Char) :
    spaceRun (a ++ b) = if spaceRun a = a.length then a.length + spaceRun b else spaceRun a := by
  induction a with
  | nil => simp [spaceRun]
  | cons c cs ih =>
    by_cases hc : pyIsSpace c = true
    · simp only [List.cons_append, spaceRun, hc, if_true, List.length_cons, List.append_eq]
      rw [ih]
      by_cases he : spaceRun cs = cs.length
      · rw [if_pos he, if_pos (show spaceRun cs + 1 = cs.length + 1 by omega)]
        omega
      · rw [if_neg he, if_neg (show ¬spaceRun cs + 1 = cs.length + 1 by omega)]
    · simp only [List.cons_append, spaceRun, hc, Bool.false_eq_true, if_false, List.length_cons]
      have := spaceRun_le cs
      rw [if_neg (by omega)]

lemma not_isPrefixOf_append_semi {n s u : List Char} (hn : ';' ∉ n)
    (h : ¬n.isPrefixOf s = true) : ¬n.isPrefixOf (s ++ ';' :: u) = true := by
  intro hp
  apply h
  rw [List.isPrefixOf_iff_prefix] at hp ⊢
  rw [List.prefix_iff_eq_take] at hp ⊢
  by_cases hlen : n.length ≤ s.length
  · rw [List.take_append_of_le_length hlen] at hp
    exact hp
  · exfalso
    rw [List.take_append_eq_append_take] at hp
    have : (';' :: u).take (n.length - s.length) = ';' :: u.take (n.length - s.length - 1) := by
      have h1 : 0 < n.length - s.length := by omega
      match e : n.length - s.length, h1 with
      | k + 1, _ => simp
    rw [this] at hp
    apply hn
    rw [hp]
    simp

/-- Bridge between the full-text matcher and the segment matcher: on a text
`s ++ ';' :: u` whose part `s` is `;`-free, a match at the start is exactly a
segment-level match on `s`, and it consumes everything up to the `;`. -/
lemma tryMatchFull_append {n s u : List Char} (hn : ';' ∉ n) (hs : ';' ∉ s) :
    tryMatchFull n (s ++ ';' :: u) = (segTry n s).map (fun g => (g.1, g.2, u)) := by
  by_cases hp : n.isPrefixOf s = true
  · have hp' : n.isPrefixOf (s ++ ';' :: u) = true := by
      rw [List.isPrefixOf_iff_prefix] at hp ⊢
      exact hp.trans (List.prefix_append s (';' :: u))
    obtain ⟨t0, ht0⟩ := List.isPrefixOf_iff_prefix.mp hp
    have hdrop : s.drop n.length = t0 := by rw [← ht0]; simp
    have hlen : n.length ≤ s.length := by rw [← ht0]; simp
    have hdrop' : (s ++ ';' :: u).drop n.length = t0 ++ ';' :: u := by
      rw [List.drop_append_of_le_length hlen, hdrop]
    have ht0free : ';' ∉ t0 := by
      intro hmem
      exact hs (ht0 ▸ List.mem_append_right n hmem)
    have hkeq : spaceRun (t0 ++ ';' :: u) = spaceRun t0 := by
      rw [spaceRun_append]
      by_cases hall : spaceRun t0 = t0.length
      · simp only [hall, if_true]
        have : pyIsSpace ';' = false := rfl
        simp [spaceRun, this]
      · simp [hall]
    have hkle : spaceRun t0 ≤ t0.length := spaceRun_le t0
    unfold tryMatchFull segTry
    rw [if_pos hp', if_pos hp, hdrop, hdrop', hkeq]
    rw [List.drop_append_of_le_length hkle, List.take_append_of_le_length hkle]
    rcases hd : t0.drop (spaceRun t0) with _ | ⟨c, rest0⟩
    · simp
    · by_cases hc : c = '='
      · subst hc
        have hrest0 : ';' ∉ rest0 := by
          intro hmem
          apply ht0free
          have h1 : (';' : Char) ∈ '=' :: rest0 := List.mem_cons_of_mem _ hmem
          rw [← hd] at h1
          exact List.mem_of_mem_drop h1
        simp only [List.cons_append]
        rw [findSemi_of_append hrest0]
        by_cases hre : rest0.isEmpty
        · simp [hre]
        · simp only [hre, Bool.false_eq_true, if_false, Option.map_some']
      · simp [hc]
  · rw [tryMatchFull, segTry, if_neg (not_isPrefixOf_append_semi hn hp), if_neg hp]
    simp

lemma tryMatchFull_none_of_no_semi {n s : List Char} (hs : ';' ∉ s) :
    tryMatchFull n s = none := by
  unfold tryMatchFull
  by_cases hp : n.isPrefixOf s = true
  · rw [if_pos hp]
    split
    · next rest hd =>
      have hrest : ';' ∉ rest := by
        intro hmem
        apply hs
        have h1 : (';' : Char) ∈ '=' :: rest := List.mem_cons_of_mem _ hmem
        rw [← hd] at h1
        exact List.mem_of_mem_drop (List.mem_of_mem_drop h1)
      rw [findSemi_eq_none hrest]
    · rfl
  · simp [hp]

lemma pySub_no_semi {r : Rule} {s : List Char} (hs : ';' ∉ s) :
    ∀ {f : Nat}, s.length ≤ f → ∀ w, pySubGo r f w s = s := by
  induction s with
  | nil => intro f _ w; exact pySub_nil r f w
  | cons c cs ih =>
    intro f hf w
    simp only [List.mem_cons, not_or] at hs
    simp only [List.length_cons] at hf
    by_cases hskip : (r.pat.wb && w) = true
    · rw [pySub_skip hskip c cs (by omega)]
      rw [ih (fun h => hs.2 h) le_rfl]
    · rw [pySub_none hskip (tryMatchFull_none_of_no_semi (by
        simp only [List.mem_cons, not_or]
        exact ⟨hs.1, hs.2⟩)) (by omega)]
      rw [ih (fun h => hs.2 h) le_rfl]

lemma pyIsWord_semi : pyIsWord ';' = false := rfl

lemma tryMatchFull_semi_head {n u : List Char} (hn : ';' ∉ n) :
    tryMatchFull n (';' :: u) = none := by
  match n, hn with
  | [], _ =>
    unfold tryMatchFull
    have : pyIsSpace ';' = false := rfl
    simp [List.isPrefixOf, spaceRun, this]
  | m :: ms, hn =>
    simp only [List.mem_cons, not_or] at hn
    unfold tryMatchFull
    have : ¬((m :: ms).isPrefixOf (';' :: u) = true) := by
      simp [List.isPrefixOf]
      intro he
      exact absurd he.symm hn.1
    simp [this]

/-- The global scan on `t ++ ';' :: u` with `t` `;`-free is the segment scan
on `t`, the `;`, and then the global scan on `u` restarted with no previous
word character. -/
lemma pySub_bridge {r : Rule} {u : List Char} (hn : ';' ∉ r.pat.name) :
    ∀ (t : List Char), ';' ∉ t → ∀ {f : Nat} (w : Bool), (t ++ ';' :: u).length ≤ f →
      pySubGo r f w (t ++ ';' :: u) = segGo r w t ++ ';' :: pySubGo r u.length false u := by
  intro t
  induction t with
  | nil =>
    intro _ f w hf
    simp only [List.nil_append, List.length_cons] at hf ⊢
    by_cases hskip : (r.pat.wb && w) = true
    · rw [pySub_skip hskip ';' u (by omega), pyIsWord_semi]
      rfl
    · rw [pySub_none hskip (tryMatchFull_semi_head hn) (by omega), pyIsWord_semi]
      rfl
  | cons c t' ih =>
    intro ht f w hf
    simp only [List.mem_cons, not_or] at ht
    have ht' : ';' ∉ t' := ht.2
    have hct : ';' ∉ (c :: t') := by
      simp only [List.mem_cons, not_or]
      exact ⟨ht.1, ht'⟩
    simp only [List.cons_append, List.length_cons] at hf ⊢
    by_cases hskip : (r.pat.wb && w) = true
    · rw [pySub_skip hskip _ _
        (by simp only [List.length_append, List.length_cons] at hf ⊢; omega)]
      rw [ih ht' (pyIsWord c) (by simp only [List.length_append, List.length_cons]; omega)]
      simp only [segGo, hskip, if_true, List.cons_append]
    · have hfull := @tryMatchFull_append r.pat.name (c :: t') u hn hct
      rcases hst : segTry r.pat.name (c :: t') with _ | ⟨g1, g2⟩
      · rw [hst] at hfull
        simp only [Option.map_none'] at hfull
        rw [pySub_none hskip (by rw [← List.cons_append]; exact hfull)
          (by simp only [List.length_append, List.length_cons] at hf ⊢; omega)]
        rw [ih ht' (pyIsWord c) (by simp only [List.length_append, List.length_cons]; omega)]
        simp only [segGo, hskip, Bool.false_eq_true, if_false, hst, List.cons_append]
      · rw [hst] at hfull
        simp only [Option.map_some'] at hfull
        rw [pySub_match hskip (by rw [← List.cons_append]; exact hfull)
          (by simp only [List.length_append, List.length_cons] at hf ⊢; omega)]
        simp only [segGo, hskip, Bool.false_eq_true, if_false, hst, List.append_assoc]

/-- Split at every `;`: the `;`-separated segments of a text.  The result is
always nonempty and its last element is the text after the final `;`. -/
def splitSemis : List Char → List (List Char)
  | [] => [[]]
  | c :: cs =>
    if c = ';' then [] :: splitSemis cs
    else
      match splitSemis cs with
      | [] => [[c]]
      | s :: rest => (c :: s) :: rest

/-- Rejoin `;`-separated segments. -/
def joinSemis : List (List Char) → List Char
  | [] => []
  | [s] => s
  | s :: rest => s ++ ';' :: joinSemis rest

/-- Map a function over every segment except the last: only segments closed by
a `;` can host a match. -/
def mapInit (f : List Char → List Char) : List (List Char) → List (List Char)
  | [] => []
  | [s] => [s]
  | s :: rest => f s :: mapInit f rest

lemma splitSemis_ne_nil (s : List Char) : splitSemis s ≠ [] := by
  cases s with
  | nil => simp [splitSemis]
  | cons c cs =>
    simp only [splitSemis]
    split
    · simp
    · rcases h : splitSemis cs with _ | ⟨x, rest⟩ <;> simp

lemma splitSemis_no_semi (s : List Char) : ∀ seg ∈ splitSemis s, ';' ∉ seg := by
  induction s with
  | nil => simp [splitSemis]
  | cons c cs ih =>
    simp only [splitSemis]
    by_cases hc : c = ';'
    · rw [if_pos hc]
      intro seg hseg
      rcases List.mem_cons.mp hseg with rfl | h
      · simp
      · exact ih seg h
    · rw [if_neg hc]
      rcases h : splitSemis cs with _ | ⟨x, rest⟩
      · exact absurd h (splitSemis_ne_nil cs)
      · intro seg hseg
        rcases List.mem_cons.mp hseg with rfl | hmem
        · simp only [List.mem_cons, not_or]
          refine ⟨fun e => hc e.symm, ?_⟩
          exact ih x (h ▸ List.mem_cons_self x rest)
        · exact ih seg (h ▸ List.mem_cons_of_mem x hmem)

lemma splitSemis_of_no_semi {s : List Char} (h : ';' ∉ s) : splitSemis s = [s] := by
  induction s with
  | nil => rfl
  | cons c cs ih =>
    simp only [List.mem_cons, not_or] at h
    have hc : ¬(c = ';') := fun e => h.1 e.symm
    simp only [splitSemis, if_neg hc, ih h.2]

lemma joinSemis_splitSemis (s : List Char) : joinSemis (splitSemis s) = s := by
  induction s with
  | nil => rfl
  | cons c cs ih =>
    simp only [splitSemis]
    by_cases hc : c = ';'
    · rw [if_pos hc]
      rcases h : splitSemis cs with _ | ⟨x, rest⟩
      · exact absurd h (splitSemis_ne_nil cs)
      · subst hc
        rw [h] at ih
        show joinSemis ([] :: x :: rest) = ';' :: cs
        simp only [joinSemis, List.nil_append]
        rw [ih]
    · rw [if_neg hc]
      rcases h : splitSemis cs with _ | ⟨x, rest⟩
      · exact absurd h (splitSemis_ne_nil cs)
      · rw [h] at ih
        cases rest with
        | nil =>
          simp only [joinSemis] at ih ⊢
          rw [ih]
        | cons y rest' =>
          simp only [joinSemis, List.cons_append] at ih ⊢
          rw [← ih]

lemma splitSemis_append {t : List Char} (u : List Char) (ht : ';' ∉ t) :
    splitSemis (t ++ ';' :: u) = t :: splitSemis u := by
  induction t with
  | nil => simp [splitSemis]
  | cons c t' ih =>
    simp only [List.mem_cons, not_or] at ht
    have hc : ¬(c = ';') := fun e => ht.1 e.symm
    simp only [List.cons_append, splitSemis, if_neg hc, List.append_eq, ih ht.2]

lemma splitSemis_joinSemis {segs : List (List Char)} (hne : segs ≠ [])
    (hfree : ∀ x ∈ segs, ';' ∉ x) : splitSemis (joinSemis segs) = segs := by
  induction segs with
  | nil => exact absurd rfl hne
  | cons x rest ih =>
    cases rest with
    | nil =>
      show splitSemis (joinSemis [x]) = [x]
      simp only [joinSemis]
      exact splitSemis_of_no_semi (hfree x (List.mem_cons_self x []))
    | cons y rest' =>
      show splitSemis (x ++ ';' :: joinSemis (y :: rest')) = x :: y :: rest'
      rw [splitSemis_append _ (hfree x (List.mem_cons_self x _))]
      rw [ih (by simp) (fun z hz => hfree z (List.mem_cons_of_mem x hz))]

lemma mapInit_id (l : List (List Char)) : mapInit (fun t => t) l = l := by
  induction l with
  | nil => rfl
  | cons x rest ih =>
    cases rest with
    | nil => rfl
    | cons y rest' =>
      show (fun t => t) x :: mapInit (fun t => t) (y :: rest') = x :: y :: rest'
      rw [ih]

lemma mapInit_comp (f g : List Char → List Char) (l : List (List Char)) :
    mapInit f (mapInit g l) = mapInit (fun x => f (g x)) l := by
  induction l with
  | nil => rfl
  | cons x rest ih =>
    cases rest with
    | nil => rfl
    | cons y rest' =>
      show mapInit f (g x :: mapInit g (y :: rest')) = f (g x) :: mapInit (fun x => f (g x)) (y :: rest')
      have hne : mapInit g (y :: rest') ≠ [] := by
        cases rest' <;> simp [mapInit]
      rcases hm : mapInit g (y :: rest') with _ | ⟨z, zs⟩
      · exact absurd hm hne
      · show mapInit f (g x :: z :: zs) = _
        simp only [mapInit]
        rw [← hm, ih]

lemma mapInit_ne_nil {f : List Char → List Char} {l : List (List Char)} (h : l ≠ []) :
    mapInit f l ≠ [] := by
  cases l with
  | nil => exact absurd rfl h
  | cons x rest => cases rest <;> simp [mapInit]

lemma mapInit_no_semi {f : List Char → List Char} {l : List (List Char)}
    (hl : ∀ x ∈ l, ';' ∉ x) (hf : ∀ x, ';' ∉ x → ';' ∉ f x) :
    ∀ x ∈ mapInit f l, ';' ∉ x := by
  induction l with
  | nil => simp [mapInit]
  | cons x rest ih =>
    cases rest with
    | nil =>
      intro z hz
      rcases List.mem_singleton.mp hz with rfl
      exact hl z (List.mem_cons_self z [])
    | cons y rest' =>
      intro z hz
      rcases List.mem_cons.mp hz with rfl | hmem
      · exact hf x (hl x (List.mem_cons_self x _))
      · exact ih (fun w hw => hl w (List.mem_cons_of_mem x hw)) z hmem

lemma spaceRun_all {l : List Char} (h : ∀ c ∈ l, pyIsSpace c = true) :
    spaceRun l = l.length := by
  induction l with
  | nil => rfl
  | cons c cs ih =>
    have hc := h c (List.mem_cons_self c cs)
    simp only [spaceRun, hc, if_true, List.length_cons]
    rw [ih (fun d hd => h d (List.mem_cons_of_mem c hd))]

/-- Characterization of a successful segment-level match: the whole segment is
`group1 ++ group2`. -/
lemma segTry_eq_some {n s g1 g2 : List Char} (h : segTry n s = some (g1, g2)) :
    ∃ ws1 wsm, (∀ c ∈ ws1, pyIsSpace c = true) ∧ (∀ c ∈ wsm, pyIsSpace c = true) ∧
      g1 = n ++ ws1 ++ '=' :: wsm ∧ g2 ≠ [] ∧ s = g1 ++ g2 := by
  unfold segTry at h
  by_cases hp : n.isPrefixOf s
  · simp only [hp, if_true] at h
    obtain ⟨t0, ht0⟩ := List.isPrefixOf_iff_prefix.mp hp
    have hdrop : s.drop n.length = t0 := by rw [← ht0]; simp
    rw [hdrop] at h
    rcases hd : t0.drop (spaceRun t0) with _ | ⟨c, rest⟩
    · rw [hd] at h; simp at h
    · rw [hd] at h
      by_cases hc : c = '='
      · subst hc
        by_cases hb : rest.isEmpty
        · simp [hb] at h
        · simp only [hb, Bool.false_eq_true, if_false, Option.some.injEq,
            Prod.mk.injEq] at h
          obtain ⟨hg1, hg2⟩ := h
          have hbne : rest ≠ [] := by simpa [List.isEmpty_iff] using hb
          have hblen : 0 < rest.length := List.length_pos.mpr hbne
          set m := min (spaceRun rest) (rest.length - 1) with hm
          have hmlt : m < rest.length := by omega
          subst hg1
          subst hg2
          refine ⟨t0.take (spaceRun t0), rest.take m, ?_, ?_, rfl, ?_, ?_⟩
          · exact mem_take_spaceRun le_rfl
          · exact mem_take_spaceRun (by omega)
          · simp [List.drop_eq_nil_iff]
            omega
          · have e1 : t0 = t0.take (spaceRun t0) ++ '=' :: rest := by
              conv_lhs => rw [← List.take_append_drop (spaceRun t0) t0]
              rw [hd]
            have e2 : rest = rest.take m ++ rest.drop m := (List.take_append_drop m rest).symm
            calc s = n ++ t0 := ht0.symm
              _ = n ++ (t0.take (spaceRun t0) ++ '=' :: rest) := congrArg _ e1
              _ = n ++ (t0.take (spaceRun t0) ++ '=' :: (rest.take m ++ rest.drop m)) := by
                  conv_lhs => rw [e2]
              _ = (n ++ t0.take (spaceRun t0) ++ '=' :: rest.take m) ++ rest.drop m := by simp
      · simp [hc] at h
  · simp [hp] at h

/-- Matching a rule against its own patched form succeeds and reproduces the
same group 1 — the value part becomes group 2. -/
lemma segTry_patched {n ws1 wsm : List Char} {vh : Char} {vt : List Char}
    (h1 : ∀ c ∈ ws1, pyIsSpace c = true) (h2 : ∀ c ∈ wsm, pyIsSpace c = true)
    (hvh : pyIsSpace vh = false) :
    segTry n (n ++ ws1 ++ '=' :: (wsm ++ vh :: vt)) =
      some (n ++ ws1 ++ '=' :: wsm, vh :: vt) := by
  have hp : n.isPrefixOf (n ++ (ws1 ++ '=' :: (wsm ++ vh :: vt))) = true :=
    List.isPrefixOf_iff_prefix.mpr (List.prefix_append n _)
  unfold segTry
  rw [List.append_assoc]
  rw [if_pos hp, List.drop_left]
  have hk : spaceRun (ws1 ++ '=' :: (wsm ++ vh :: vt)) = ws1.length := by
    rw [spaceRun_append, spaceRun_all h1]
    have : pyIsSpace '=' = false := rfl
    simp [spaceRun, this]
  rw [hk]
  have hws1 : (ws1 ++ '=' :: (wsm ++ vh :: vt)).drop ws1.length = '=' :: (wsm ++ vh :: vt) :=
    List.drop_left ws1 _
  have hws1t : (ws1 ++ '=' :: (wsm ++ vh :: vt)).take ws1.length = ws1 :=
    List.take_left ws1 _
  rw [hws1, hws1t]
  have hne : (wsm ++ vh :: vt).isEmpty = false := by
    simp [List.isEmpty_iff]
  have hsr : spaceRun (wsm ++ vh :: vt) = wsm.length := by
    rw [spaceRun_append, spaceRun_all h2]
    simp [spaceRun, hvh]
  have hlen : (wsm ++ vh :: vt).length - 1 = wsm.length + vt.length := by
    simp
  have hmin : min (spaceRun (wsm ++ vh :: vt)) ((wsm ++ vh :: vt).length - 1) = wsm.length := by
    rw [hsr, hlen]
    omega
  simp only [hne, Bool.false_eq_true, if_false, hmin, List.take_left, List.drop_left]

/-- The segment scan never introduces a `;` when the rule value has none. -/
lemma segGo_no_semi {r : Rule} (hv : ';' ∉ r.value) :
    ∀ {s : List Char}, ';' ∉ s → ∀ w, ';' ∉ segGo r w s := by
  intro s
  induction s with
  | nil => intro _ w; simp [segGo]
  | cons c cs ih =>
    intro hs w
    simp only [List.mem_cons, not_or] at hs
    simp only [segGo]
    by_cases hskip : (r.pat.wb && w) = true
    · rw [if_pos hskip]
      simp only [List.mem_cons, not_or]
      exact ⟨hs.1, ih hs.2 (pyIsWord c)⟩
    · rw [if_neg hskip]
      rcases hst : segTry r.pat.name (c :: cs) with _ | ⟨g1, g2⟩
      · simp only [List.mem_cons, not_or]
        exact ⟨hs.1, ih hs.2 (pyIsWord c)⟩
      · obtain ⟨ws1, wsm, _, _, _, _, hseq⟩ := segTry_eq_some hst
        intro hmem
        rcases List.mem_append.mp hmem with hmem1 | hmem2
        · have : (';' : Char) ∈ c :: cs := by
            rw [hseq]
            exact List.mem_append_left g2 hmem1
          rcases List.mem_cons.mp this with e | hmm
          · exact hs.1 e
          · exact hs.2 hmm
        · exact hv hmem2

/-- One per-segment pass of a rule list (each rule starts at the beginning of
the segment, whose previous character is always `;` or the start of text). -/
def pipeSeg (t : List Char) (patches : List Rule) : List Char :=
  patches.foldl (fun x r => segGo r false x) t

lemma subRule_segs {r : Rule} (hn : ';' ∉ r.pat.name) :
    ∀ (segs : List (List Char)), segs ≠ [] → (∀ x ∈ segs, ';' ∉ x) →
      pySubGo r (joinSemis segs).length false (joinSemis segs) =
        joinSemis (mapInit (segGo r false) segs) := by
  intro segs
  induction segs with
  | nil => intro h _; exact absurd rfl h
  | cons x rest ih =>
    intro _ hfree
    cases rest with
    | nil =>
      show pySubGo r (joinSemis [x]).length false (joinSemis [x]) = joinSemis (mapInit (segGo r false) [x])
      simp only [joinSemis, mapInit]
      exact pySub_no_semi (hfree x (List.mem_cons_self x [])) le_rfl false
    | cons y rest' =>
      show pySubGo r (x ++ ';' :: joinSemis (y :: rest')).length false
          (x ++ ';' :: joinSemis (y :: rest')) =
        joinSemis (segGo r false x :: mapInit (segGo r false) (y :: rest'))
      rw [pySub_bridge hn x (hfree x (List.mem_cons_self x _)) false le_rfl]
      rw [ih (by simp) (fun z hz => hfree z (List.mem_cons_of_mem x hz))]
      have hne : mapInit (segGo r false) (y :: rest') ≠ [] := mapInit_ne_nil (by simp)
      rcases hm : mapInit (segGo r false) (y :: rest') with _ | ⟨z, zs⟩
      · exact absurd hm hne
      · rfl

/-- Segment decomposition of the scan: `re.sub` for one rule acts on each
`;`-closed segment independently and leaves the final segment alone. -/
lemma subRule_decomp (r : Rule) (s : List Char) (hn : ';' ∉ r.pat.name) :
    subRule r s = joinSemis (mapInit (segGo r false) (splitSemis s)) := by
  have h := subRule_segs hn (splitSemis s) (splitSemis_ne_nil s) (splitSemis_no_semi s)
  rw [joinSemis_splitSemis] at h
  exact h

/-- Segment decomposition of a whole rule-list pass. -/
lemma apply_content_decomp (L : List Rule) (hn : ∀ r ∈ L, ';' ∉ r.pat.name)
    (hv : ∀ r ∈ L, ';' ∉ r.value) (s : List Char) :
    apply_content s L = joinSemis (mapInit (fun t => pipeSeg t L) (splitSemis s)) := by
  induction L generalizing s with
  | nil =>
    show s = joinSemis (mapInit (fun t => t) (splitSemis s))
    rw [mapInit_id, joinSemis_splitSemis]
  | cons r L' ih =>
    have hstep : apply_content s (r :: L') = apply_content (subRule r s) L' := rfl
    rw [hstep]
    rw [ih (fun x hx => hn x (List.mem_cons_of_mem r hx))
        (fun x hx => hv x (List.mem_cons_of_mem r hx))]
    rw [subRule_decomp r s (hn r (List.mem_cons_self r L'))]
    rw [splitSemis_joinSemis (mapInit_ne_nil (splitSemis_ne_nil s))
      (mapInit_no_semi (splitSemis_no_semi s)
        (fun x hx => segGo_no_semi (hv r (List.mem_cons_self r L')) hx false))]
    rw [mapInit_comp]
    rfl

/-!  Idempotence machinery.  The key facts, proved per `;`-free segment:

* a rule re-applied to its own patched output is the identity;
* under the pairwise conditions `rulePairOk` below (distinct names, and no
  unblocked occurrence of one name as a proper suffix of another), a rule is
  still the identity on a segment another rule has patched.
-/

/-- Well-formedness of a rule as data: nonempty name free of whitespace, `=`
and `;`; nonempty value with non-whitespace head and free of `=` and `;`.
Every rule of the program satisfies this (established by evaluation below). -/
def wfRule (r : Rule) : Bool :=
  !r.pat.name.isEmpty &&
  r.pat.name.all (fun c => !pyIsSpace c && !(c = '=') && !(c = ';')) &&
  (match r.value with
   | [] => false
   | vh :: _ => !pyIsSpace vh) &&
  r.value.all (fun c => !(c = '=') && !(c = ';'))

lemma wf_name_ne {r : Rule} (h : wfRule r = true) : r.pat.name ≠ [] := by
  unfold wfRule at h
  simp only [Bool.and_eq_true, Bool.not_eq_true'] at h
  simpa [List.isEmpty_iff] using h.1.1.1

lemma wf_name_chars {r : Rule} (h : wfRule r = true) :
    ∀ c ∈ r.pat.name, pyIsSpace c = false ∧ c ≠ '=' ∧ c ≠ ';' := by
  unfold wfRule at h
  simp only [Bool.and_eq_true, List.all_eq_true] at h
  intro c hc
  have := h.1.1.2 c hc
  simp only [Bool.and_eq_true, Bool.not_eq_true', decide_eq_false_iff_not] at this
  exact ⟨this.1.1, this.1.2, this.2⟩

lemma wf_value_shape {r : Rule} (h : wfRule r = true) :
    ∃ vh vt, r.value = vh :: vt ∧ pyIsSpace vh = false := by
  unfold wfRule at h
  simp only [Bool.and_eq_true] at h
  have h2 := h.1.2
  rcases hv : r.value with _ | ⟨vh, vt⟩
  · rw [hv] at h2; simp at h2
  · rw [hv] at h2
    simp only [Bool.not_eq_true'] at h2
    exact ⟨vh, vt, rfl, h2⟩

lemma wf_value_chars {r : Rule} (h : wfRule r = true) :
    ∀ c ∈ r.value, c ≠ '=' ∧ c ≠ ';' := by
  unfold wfRule at h
  simp only [Bool.and_eq_true, List.all_eq_true] at h
  intro c hc
  have := h.2 c hc
  simp only [Bool.and_eq_true, Bool.not_eq_true', decide_eq_false_iff_not] at this
  exact this

lemma wf_name_no_semi {r : Rule} (h : wfRule r = true) : ';' ∉ r.pat.name :=
  fun hmem => (wf_name_chars h ';' hmem).2.2 rfl

lemma wf_value_no_semi {r : Rule} (h : wfRule r = true) : ';' ∉ r.value :=
  fun hmem => (wf_value_chars h ';' hmem).2 rfl

lemma wf_name_no_eq {r : Rule} (h : wfRule r = true) : '=' ∉ r.pat.name :=
  fun hmem => (wf_name_chars h '=' hmem).2.1 rfl

lemma wf_value_no_eq {r : Rule} (h : wfRule r = true) : '=' ∉ r.value :=
  fun hmem => (wf_value_chars h '=' hmem).1 rfl

/-- The boundary state of the scan after consuming `u`,  starting from state
`w`: the last character of `u` decides whether the next position sits after a
word character. -/
def prevAt (w : Bool) (u : List Char) : Bool := (u.map pyIsWord).getLastD w

lemma prevAt_nil (w : Bool) : prevAt w [] = w := rfl

lemma prevAt_cons (w : Bool) (c : Char) (u : List Char) :
    prevAt w (c :: u) = prevAt (pyIsWord c) u := by
  unfold prevAt
  rw [List.map_cons, List.getLastD_cons]

lemma prevAt_append (w : Bool) (a b : List Char) :
    prevAt w (a ++ b) = prevAt (prevAt w a) b := by
  induction a generalizing w with
  | nil => rfl
  | cons c a' ih =>
    rw [List.cons_append, prevAt_cons, prevAt_cons, ih]

lemma getLastD_irrel {l : List Char} (h : l ≠ []) (d1 d2 : Char) :
    l.getLastD d1 = l.getLastD d2 := by
  induction l generalizing d1 d2 with
  | nil => exact absurd rfl h
  | cons c l' ih =>
    rw [List.getLastD_cons, List.getLastD_cons]

lemma prevAt_ne_nil {w : Bool} {z : List Char} (h : z ≠ []) :
    prevAt w z = pyIsWord (z.getLastD ' ') := by
  induction z generalizing w with
  | nil => exact absurd rfl h
  | cons c z' ih =>
    rw [prevAt_cons, List.getLastD_cons]
    cases z' with
    | nil => rfl
    | cons d z2 =>
      rw [ih (by simp)]
      have := @getLastD_irrel (d :: z2) (by simp) c ' '
      rw [this]

/-- Branch equations for the segment scanner. -/
lemma segGo_skip {r : Rule} {w : Bool} (hw : (r.pat.wb && w) = true) (c : Char)
    (cs : List Char) : segGo r w (c :: cs) = c :: segGo r (pyIsWord c) cs := by
  simp [segGo, hw]

lemma segGo_matched {r : Rule} {w : Bool} (hw : (r.pat.wb && w) ≠ true) {c : Char}
    {cs g1 g2 : List Char} (hm : segTry r.pat.name (c :: cs) = some (g1, g2)) :
    segGo r w (c :: cs) = g1 ++ r.value := by
  simp [segGo, hw, hm]

lemma segGo_none {r : Rule} {w : Bool} (hw : (r.pat.wb && w) ≠ true) {c : Char}
    {cs : List Char} (hm : segTry r.pat.name (c :: cs) = none) :
    segGo r w (c :: cs) = c :: segGo r (pyIsWord c) cs := by
  simp [segGo, hw, hm]

lemma segTry_none_of_not_prefix {n s : List Char} (h : ¬n.isPrefixOf s = true) :
    segTry n s = none := by
  unfold segTry
  rw [if_neg h]

lemma not_prefix_of_head_ne {nh cy : Char} {nt y : List Char} (h : nh ≠ cy) :
    ¬(nh :: nt).isPrefixOf (cy :: y) = true := by
  simp [List.isPrefixOf]
  intro he
  exact absurd he h

/-- If the text right after the name starts with a character that is neither
whitespace nor `=`, there is no match. -/
lemma segTry_append_nonspace {n : List Char} {d : Char} {rest : List Char}
    (hd1 : pyIsSpace d = false) (hd2 : d ≠ '=') :
    segTry n (n ++ d :: rest) = none := by
  have hp : n.isPrefixOf (n ++ d :: rest) = true :=
    List.isPrefixOf_iff_prefix.mpr (List.prefix_append n _)
  unfold segTry
  rw [if_pos hp, List.drop_left]
  have hk : spaceRun (d :: rest) = 0 := by simp [spaceRun, hd1]
  rw [hk]
  simp only [List.drop_zero]
  split
  · next rest' heq =>
    exact absurd (List.cons.injEq .. ▸ heq).1 hd2
  · rfl

/-- Without an `=` in the text there is no match. -/
lemma segTry_none_of_no_eq {n t : List Char} (h : '=' ∉ t) : segTry n t = none := by
  unfold segTry
  by_cases hp : n.isPrefixOf t = true
  · rw [if_pos hp]
    split
    · next rest heq =>
      exfalso
      apply h
      have : ('=' : Char) ∈ (t.drop n.length).drop (spaceRun (t.drop n.length)) := by
        rw [heq]; simp
      exact List.mem_of_mem_drop (List.mem_of_mem_drop this)
    · rfl
  · rw [if_neg hp]

lemma spaceRun_lt_of_mem {l : List Char} {c : Char} (hc : c ∈ l)
    (hns : pyIsSpace c = false) : spaceRun l < l.length := by
  induction l with
  | nil => simp at hc
  | cons d l' ih =>
    rcases List.mem_cons.mp hc with rfl | hmem
    · simp [spaceRun, hns]
    · by_cases hd : pyIsSpace d = true
      · simp only [spaceRun, hd, if_true, List.length_cons]
        have := ih hmem
        omega
      · simp only [spaceRun, hd, Bool.false_eq_true, if_false, List.length_cons]
        omega

/-- No match of a different name on a freshly patched head: the patched text
starts with the whole patching rule's name, and a distinct name cannot align
with the `=` that follows it. -/
lemma segTry_clash {n n' ws1 u : List Char} (hne : n' ≠ n)
    (hn'c : ∀ c ∈ n', pyIsSpace c = false ∧ c ≠ '=')
    (hnc : ∀ c ∈ n, pyIsSpace c = false ∧ c ≠ '=')
    (hws1 : ∀ c ∈ ws1, pyIsSpace c = true) :
    segTry n' (n ++ ws1 ++ '=' :: u) = none := by
  by_cases hp : n'.isPrefixOf (n ++ ws1 ++ '=' :: u) = true
  · obtain ⟨t, ht⟩ := List.isPrefixOf_iff_prefix.mp hp
    have hsplit : n' ++ t = n ++ (ws1 ++ '=' :: u) := by rw [ht]; simp
    rcases List.append_eq_append_iff.mp hsplit with ⟨u₂, hn2, ht2⟩ | ⟨u₂, hn2, ht2⟩
    · -- n = n' ++ u₂ : n' is a prefix of n
      rcases u₂ with _ | ⟨d, u₃⟩
      · exact absurd (by simpa using hn2.symm) hne
      · have hd : pyIsSpace d = false ∧ d ≠ '=' := by
          apply hnc
          rw [hn2]
          simp
        have hdrop : (n ++ ws1 ++ '=' :: u).drop n'.length = (d :: u₃) ++ (ws1 ++ '=' :: u) := by
          have : n ++ ws1 ++ '=' :: u = n' ++ ((d :: u₃) ++ (ws1 ++ '=' :: u)) := by
            rw [hn2]; simp
          rw [this, List.drop_left]
        unfold segTry
        rw [if_pos hp, hdrop]
        have hk : spaceRun ((d :: u₃) ++ (ws1 ++ '=' :: u)) = 0 := by
          simp [spaceRun, hd.1]
        rw [hk]
        simp only [List.drop_zero, List.cons_append]
        split
        · next rest heq =>
          exact absurd (List.cons.injEq .. ▸ heq).1 hd.2
        · rfl
    · -- n' = n ++ u₂ : n' runs past n into the whitespace or the `=`
      exfalso
      rcases u₂ with _ | ⟨d, u₃⟩
      · exact hne (by simpa using hn2)
      · have hd : pyIsSpace d = false ∧ d ≠ '=' := by
          apply hn'c
          rw [hn2]
          simp
        rcases ws1 with _ | ⟨w0, ws1'⟩
        · -- ws1 = [], so d aligns with '='
          simp only [List.nil_append] at ht2
          have : d = '=' := (List.cons.injEq .. ▸ ht2.symm).1
          exact hd.2 this
        · -- d aligns with the whitespace character w0
          simp only [List.cons_append] at ht2
          have hdw : d = w0 := (List.cons.injEq .. ▸ ht2.symm).1
          have : pyIsSpace w0 = true := hws1 w0 (List.mem_cons_self w0 ws1')
          rw [← hdw] at this
          rw [this] at hd
          exact absurd hd.1 (by simp)
  · exact segTry_none_of_not_prefix hp

/-- Failure of a match attempt is stable under rewriting text that lies
beyond an `=` already seen: if the attempt fails on `a ++ b` and `a` contains
an `=`, it also fails on `a ++ b'` (both `b`, `b'` nonempty).  All the
information the matcher can use lives in `a`. -/
lemma segTry_none_stable {n a b b' : List Char} (ha : '=' ∈ a) (hb : b ≠ []) (hb' : b' ≠ [])
    (hn : '=' ∉ n) (h : segTry n (a ++ b) = none) : segTry n (a ++ b') = none := by
  by_cases hp : n.isPrefixOf (a ++ b) = true
  · -- the name matches; a is longer than the name, and the scan fails at a
    -- non-`=` character inside `a`, identically for both texts
    obtain ⟨t, ht⟩ := List.isPrefixOf_iff_prefix.mp hp
    have hsplit : a ++ b = n ++ t := ht.symm
    rcases List.append_eq_append_iff.mp hsplit with ⟨a₂, hna, hba⟩ | ⟨a₂, hna, hba⟩
    · -- n = a ++ a₂ : a would be a prefix of n, forcing '=' ∈ n
      exact absurd (hna ▸ List.mem_append_left a₂ ha) hn
    · -- a = n ++ a₂
      have heq2 : '=' ∈ a₂ := by
        rcases List.mem_append.mp (hna ▸ ha) with h1 | h2
        · exact absurd h1 hn
        · exact h2
      have ha2ne : a₂ ≠ [] := by
        rintro rfl
        simp at heq2
      have hk : spaceRun a₂ < a₂.length :=
        spaceRun_lt_of_mem heq2 (by rfl)
      have hdropb : (a ++ b).drop n.length = a₂ ++ b := by
        rw [hna, List.append_assoc, List.drop_left]
      have hdropb' : (a ++ b').drop n.length = a₂ ++ b' := by
        rw [hna, List.append_assoc, List.drop_left]
      have hkb : spaceRun (a₂ ++ b) = spaceRun a₂ := by
        rw [spaceRun_append, if_neg (by omega)]
      have hkb' : spaceRun (a₂ ++ b') = spaceRun a₂ := by
        rw [spaceRun_append, if_neg (by omega)]
      have hd2 : a₂.drop (spaceRun a₂) ≠ [] := by
        simp [List.drop_eq_nil_iff]
        omega
      obtain ⟨d, a₃, hda⟩ := List.exists_cons_of_ne_nil hd2
      have hsplitb : (a₂ ++ b).drop (spaceRun a₂) = d :: (a₃ ++ b) := by
        rw [List.drop_append_of_le_length (by omega), hda]
        simp
      have hsplitb' : (a₂ ++ b').drop (spaceRun a₂) = d :: (a₃ ++ b') := by
        rw [List.drop_append_of_le_length (by omega), hda]
        simp
      have hdne : d ≠ '=' := by
        intro rfl_d
        subst rfl_d
        unfold segTry at h
        rw [if_pos hp, hdropb, hkb, hsplitb] at h
        have : a₃ ++ b ≠ [] := by
          simp [hb]
        simp only [List.isEmpty_iff] at h
        rw [if_neg (by simpa [List.isEmpty_iff] using this)] at h
        · simp at h
      have hp' : n.isPrefixOf (a ++ b') = true := by
        rw [List.isPrefixOf_iff_prefix]
        exact ⟨a₂ ++ b', by rw [hna]; simp⟩
      unfold segTry
      rw [if_pos hp', hdropb', hkb', hsplitb']
      split
      · next rest heq =>
        exact absurd (List.cons.injEq .. ▸ heq).1 hdne
      · rfl
  · -- the name does not even match `a`; the same failure occurs on `a ++ b'`
    apply segTry_none_of_not_prefix
    intro hp'
    apply hp
    obtain ⟨t, ht⟩ := List.isPrefixOf_iff_prefix.mp hp'
    have hsplit : a ++ b' = n ++ t := ht.symm
    rcases List.append_eq_append_iff.mp hsplit with ⟨a₂, hna, _⟩ | ⟨a₂, hna, _⟩
    · exact absurd (hna ▸ List.mem_append_left a₂ ha) hn
    · rw [List.isPrefixOf_iff_prefix]
      exact ⟨a₂ ++ b, by rw [hna]; simp⟩

/-- What one segment pass can do: nothing, or rewrite the tail after the
(unique) match into `prefix ++ group1 ++ value`. -/
lemma segGo_structure (r : Rule) : ∀ (s : List Char) (w : Bool),
    segGo r w s = s ∨ ∃ pre g1 g2, s = pre ++ g1 ++ g2 ∧
      segGo r w s = pre ++ g1 ++ r.value ∧ '=' ∈ g1 ∧ g2 ≠ [] ∧
      segTry r.pat.name (g1 ++ g2) = some (g1, g2) := by
  intro s
  induction s with
  | nil => intro w; left; rfl
  | cons c cs ih =>
    intro w
    by_cases hskip : (r.pat.wb && w) = true
    · rcases ih (pyIsWord c) with h | ⟨pre, g1, g2, hs, hgo, hg1, hg2, hmm⟩
      · left
        rw [segGo_skip hskip, h]
      · right
        refine ⟨c :: pre, g1, g2, by rw [hs]; simp, ?_, hg1, hg2, hmm⟩
        rw [segGo_skip hskip, hgo]
        simp
    · rcases hm : segTry r.pat.name (c :: cs) with _ | ⟨g1, g2⟩
      · rcases ih (pyIsWord c) with h | ⟨pre, g1, g2, hs, hgo, hg1, hg2, hmm⟩
        · left
          rw [segGo_none hskip hm, h]
        · right
          refine ⟨c :: pre, g1, g2, by rw [hs]; simp, ?_, hg1, hg2, hmm⟩
          rw [segGo_none hskip hm, hgo]
          simp
      · right
        obtain ⟨ws1, wsm, _, _, hg1shape, hg2ne, hseq⟩ := segTry_eq_some hm
        refine ⟨[], g1, g2, by rw [hseq]; simp, ?_, ?_, hg2ne, by rw [← hseq]; exact hm⟩
        · rw [segGo_matched hskip hm]
          simp
        · rw [hg1shape]
          simp

/-- A pass is the identity whenever at every position the attempt is either
blocked by the word boundary or fails. -/
lemma segGo_id_of {r : Rule} : ∀ (s : List Char) (w : Bool),
    (∀ u t, s = u ++ t →
      (r.pat.wb = true ∧ prevAt w u = true) ∨ segTry r.pat.name t = none) →
    segGo r w s = s := by
  intro s
  induction s with
  | nil => intro w _; rfl
  | cons c cs ih =>
    intro w H
    have Htail : ∀ u t, cs = u ++ t →
        (r.pat.wb = true ∧ prevAt (pyIsWord c) u = true) ∨ segTry r.pat.name t = none := by
      intro u t he
      have := H (c :: u) t (by rw [he]; rfl)
      rwa [prevAt_cons] at this
    by_cases hskip : (r.pat.wb && w) = true
    · rw [segGo_skip hskip, ih (pyIsWord c) Htail]
    · have h0 := H [] (c :: cs) rfl
      rcases h0 with ⟨hwb, hw⟩ | hnone
      · rw [prevAt_nil] at hw
        exact absurd (by rw [hwb, hw]; rfl) hskip
      · rw [segGo_none hskip hnone, ih (pyIsWord c) Htail]

lemma getD_last_eq_getLastD {l : List Char} (h : l ≠ []) (d : Char) :
    l.getD (l.length - 1) d = l.getLastD d := by
  induction l with
  | nil => exact absurd rfl h
  | cons c l' ih =>
    cases l' with
    | nil => rfl
    | cons e l2 =>
      rw [List.getLastD_cons]
      have h1 : (c :: e :: l2).length - 1 = l2.length + 1 := by simp
      rw [h1]
      have h2 : (c :: e :: l2).getD (l2.length + 1) d = (e :: l2).getD l2.length d := by
        simp [List.getD_cons_succ]
      rw [h2]
      have h3 : (e :: l2).length - 1 = l2.length := by simp
      have h4 := ih (by simp)
      rw [h3] at h4
      rw [h4]
      exact getLastD_irrel (by simp) d c

/-- `suffOkN r' n = true`: every occurrence of the name of `r'` as a proper
suffix of `n` is blocked — the pattern of `r'` has a `\b` and the character of
`n` just before the occurrence is a word character. -/
def suffOkN (r' : Rule) (n : List Char) : Bool :=
  (List.range n.length).all fun d =>
    decide (d = 0) || !(n.drop d == r'.pat.name) ||
      (r'.pat.wb && pyIsWord (n.getD (d - 1) ' '))

lemma suffOkN_spec {r' : Rule} {n z₁ z₂ : List Char} (h : suffOkN r' n = true)
    (hsplit : n = z₁ ++ z₂) (hz1 : z₁ ≠ []) (hz2 : z₂ ≠ []) (hz2n : z₂ = r'.pat.name) :
    r'.pat.wb = true ∧ pyIsWord (z₁.getLastD ' ') = true := by
  unfold suffOkN at h
  rw [List.all_eq_true] at h
  have hd : z₁.length ∈ List.range n.length := by
    rw [List.mem_range, hsplit, List.length_append]
    have := List.length_pos.mpr hz2
    omega
  have hinst := h z₁.length hd
  simp only [Bool.or_eq_true, decide_eq_true_eq, Bool.not_eq_true', beq_eq_false_iff_ne,
    ne_eq, Bool.and_eq_true] at hinst
  rcases hinst with (h0 | hne) | hblk
  · exact absurd h0 (by simpa [List.length_eq_zero] using hz1)
  · exfalso
    apply hne
    rw [hsplit, List.drop_left, hz2n]
  · refine ⟨hblk.1, ?_⟩
    have hlen : z₁.length - 1 < z₁.length := by
      have := List.length_pos.mpr hz1
      omega
    have hgd : n.getD (z₁.length - 1) ' ' = z₁.getD (z₁.length - 1) ' ' := by
      rw [hsplit]
      exact List.getD_append _ _ _ _ hlen
    have := hblk.2
    rw [hgd, getD_last_eq_getLastD hz1 ' '] at this
    exact this

/-- At any position strictly inside a freshly patched region
`n ++ ws1 ++ '=' :: (wsm ++ vh :: vt)`, a rule `r'` whose name differs from
`n` and is suffix-compatible with it can never match: the attempt is either
blocked by the word boundary or fails outright. -/
lemma patched_point {r' : Rule} {n ws1 wsm vt : List Char} {vh : Char}
    (hw1 : ∀ c ∈ ws1, pyIsSpace c = true) (hw2 : ∀ c ∈ wsm, pyIsSpace c = true)
    (hnc : ∀ c ∈ n, pyIsSpace c = false ∧ c ≠ '=')
    (hvq : '=' ∉ vh :: vt)
    (hwf' : wfRule r' = true) (hso : suffOkN r' n = true)
    (hne : r'.pat.name ≠ n) :
    ∀ z₁ t (w : Bool), z₁ ≠ [] →
      n ++ ws1 ++ '=' :: (wsm ++ vh :: vt) = z₁ ++ t →
      (r'.pat.wb = true ∧ prevAt w z₁ = true) ∨ segTry r'.pat.name t = none := by
  obtain ⟨nh', nt', hn'⟩ := List.exists_cons_of_ne_nil (wf_name_ne hwf')
  have hn'h := wf_name_chars hwf' nh' (by rw [hn']; exact List.mem_cons_self nh' nt')
  -- failing attempts at text whose head is `=` or whitespace
  have head_eq_none : ∀ Y : List Char, segTry r'.pat.name ('=' :: Y) = none := by
    intro Y
    rw [hn']
    exact segTry_none_of_not_prefix (not_prefix_of_head_ne hn'h.2.1)
  have head_space_none : ∀ (c0 : Char), pyIsSpace c0 = true →
      ∀ Y : List Char, segTry r'.pat.name (c0 :: Y) = none := by
    intro c0 hc0 Y
    rw [hn']
    refine segTry_none_of_not_prefix (not_prefix_of_head_ne ?_)
    intro he
    rw [he, hc0] at hn'h
    exact absurd hn'h.1 (by simp)
  intro z₁ t w hz1 hsplit
  have hsplit' : z₁ ++ t = n ++ (ws1 ++ '=' :: (wsm ++ vh :: vt)) := by
    rw [← hsplit]; simp
  rcases List.append_eq_append_iff.mp hsplit' with ⟨u, hnu, htu⟩ | ⟨u, hz1u, hRu⟩
  · -- z₁ sits inside the name: n = z₁ ++ u, t = u ++ (ws1 ++ '=' :: X)
    by_cases hu : u = []
    · subst hu
      right
      simp only [List.nil_append] at htu
      subst htu
      rcases hws : ws1 with _ | ⟨w0, ws1'⟩
      · exact head_eq_none _
      · exact head_space_none w0 (hw1 w0 (by rw [hws]; exact List.mem_cons_self w0 ws1')) _
    · by_cases hun : u = r'.pat.name
      · left
        have := suffOkN_spec hso hnu hz1 hu hun
        refine ⟨this.1, ?_⟩
        rw [prevAt_ne_nil hz1]
        exact this.2
      · right
        subst htu
        by_cases hp : r'.pat.name.isPrefixOf (u ++ (ws1 ++ '=' :: (wsm ++ vh :: vt))) = true
        · obtain ⟨t2, ht2⟩ := List.isPrefixOf_iff_prefix.mp hp
          rcases List.append_eq_append_iff.mp ht2 with ⟨p, hup, htp⟩ | ⟨p, hnp, hYp⟩
          · -- u = r'.name ++ p
            rcases p with _ | ⟨d, p₃⟩
            · exact absurd (by simpa using hup) hun
            · have hd : pyIsSpace d = false ∧ d ≠ '=' := by
                apply hnc
                rw [hnu, hup]
                simp
              have hform : u ++ (ws1 ++ '=' :: (wsm ++ vh :: vt)) =
                  r'.pat.name ++ (d :: (p₃ ++ (ws1 ++ '=' :: (wsm ++ vh :: vt)))) := by
                rw [hup]; simp
              rw [hform]
              exact segTry_append_nonspace hd.1 hd.2
          · -- r'.name = u ++ p : the name of r' would run past the patched name
            exfalso
            rcases p with _ | ⟨d, p₃⟩
            · exact hun (by simpa using hnp.symm)
            · have hd : pyIsSpace d = false ∧ d ≠ '=' := by
                have : d ∈ r'.pat.name := by rw [hnp]; simp
                exact ⟨(wf_name_chars hwf' d this).1,
                  (wf_name_chars hwf' d this).2.1⟩
              rcases hws : ws1 with _ | ⟨w0, ws1'⟩
              · rw [hws] at hYp
                simp only [List.nil_append] at hYp
                exact hd.2 (List.cons.injEq .. ▸ hYp).1.symm
              · rw [hws] at hYp
                simp only [List.cons_append] at hYp
                have hdw : w0 = d := (List.cons.injEq .. ▸ hYp).1
                have hsp : pyIsSpace w0 = true :=
                  hw1 w0 (by rw [hws]; exact List.mem_cons_self w0 ws1')
                rw [hdw] at hsp
                rw [hsp] at hd
                exact absurd hd.1 (by simp)
        · exact segTry_none_of_not_prefix hp
  · -- z₁ covers the name: z₁ = n ++ u, and ws1 ++ '=' :: X = u ++ t
    right
    rcases List.append_eq_append_iff.mp hRu with ⟨p, hup, hXp⟩ | ⟨p, hwp, htp⟩
    · -- u = ws1 ++ p and '=' :: X = p ++ t
      rcases p with _ | ⟨pc, p₃⟩
      · simp only [List.nil_append] at hXp
        rw [← hXp]
        exact head_eq_none _
      · have hpc : pc = '=' := (List.cons.injEq .. ▸ hXp).1.symm
        have hX : wsm ++ vh :: vt = p₃ ++ t := (List.cons.injEq .. ▸ hXp).2
        apply segTry_none_of_no_eq
        intro hmem
        have : ('=' : Char) ∈ wsm ++ vh :: vt := by
          rw [hX]
          exact List.mem_append_right p₃ hmem
        rcases List.mem_append.mp this with h1 | h2
        · have := hw2 '=' h1
          exact absurd this (by simp [pyIsSpace])
        · exact hvq h2
    · -- ws1 = u ++ p and t = p ++ '=' :: X
      rcases p with _ | ⟨pc, p₃⟩
      · simp only [List.nil_append] at htp
        rw [htp]
        exact head_eq_none _
      · rw [htp]
        refine head_space_none pc ?_ _
        apply hw1
        rw [hwp]
        simp

/-- A rule `r'` leaves every proper tail of a region freshly patched by a
compatible rule unchanged. -/
lemma segGo_patched_tail {r' : Rule} {n ws1 wsm vt : List Char} {vh : Char}
    (hw1 : ∀ c ∈ ws1, pyIsSpace c = true) (hw2 : ∀ c ∈ wsm, pyIsSpace c = true)
    (hnc : ∀ c ∈ n, pyIsSpace c = false ∧ c ≠ '=')
    (hvq : '=' ∉ vh :: vt)
    (hwf' : wfRule r' = true) (hso : suffOkN r' n = true)
    (hne : r'.pat.name ≠ n) :
    ∀ z₁ t (w : Bool), z₁ ≠ [] →
      n ++ ws1 ++ '=' :: (wsm ++ vh :: vt) = z₁ ++ t →
      segGo r' (prevAt w z₁) t = t := by
  intro z₁ t w hz1 hsplit
  apply segGo_id_of
  intro u t₂ he
  have hp := patched_point hw1 hw2 hnc hvq hwf' hso hne (z₁ ++ u) t₂ w
    (by simp [hz1]) (by rw [hsplit, he]; simp)
  rcases hp with ⟨hwb, hpa⟩ | hnone
  · left
    refine ⟨hwb, ?_⟩
    rw [← prevAt_append]
    exact hpa
  · right
    exact hnone

/-- A compatible rule `r'` leaves a segment that is exactly a freshly patched
region unchanged, whatever the starting boundary state: the head cannot
re-match (the names differ) and no interior position can match either. -/
lemma segGo_patched_whole {r' : Rule} {n ws1 wsm vt : List Char} {vh : Char}
    (hw1 : ∀ c ∈ ws1, pyIsSpace c = true) (hw2 : ∀ c ∈ wsm, pyIsSpace c = true)
    (hnc : ∀ c ∈ n, pyIsSpace c = false ∧ c ≠ '=')
    (hvq : '=' ∉ vh :: vt)
    (hwf' : wfRule r' = true) (hso : suffOkN r' n = true)
    (hne : r'.pat.name ≠ n) (w : Bool) :
    segGo r' w (n ++ ws1 ++ '=' :: (wsm ++ vh :: vt)) =
      n ++ ws1 ++ '=' :: (wsm ++ vh :: vt) := by
  apply segGo_id_of
  intro u t he
  by_cases hu : u = []
  · subst hu
    right
    simp only [List.nil_append] at he
    rw [← he]
    exact segTry_clash hne
      (fun d hd => ⟨(wf_name_chars hwf' d hd).1, (wf_name_chars hwf' d hd).2.1⟩)
      hnc hw1
  · exact patched_point hw1 hw2 hnc hvq hwf' hso hne u t w hu he

/-- One scan branch fact: the head of the segment is either passed through
(skip or no match) or consumed by a match. -/
lemma segGo_head_cases (r' : Rule) (w : Bool) (c : Char) (cs : List Char) :
    segGo r' w (c :: cs) = c :: segGo r' (pyIsWord c) cs ∨
    ∃ g1' g2', segTry r'.pat.name (c :: cs) = some (g1', g2') ∧
      ¬(r'.pat.wb && w) = true ∧ segGo r' w (c :: cs) = g1' ++ r'.value := by
  by_cases hskip : (r'.pat.wb && w) = true
  · left; exact segGo_skip hskip c cs
  · rcases hm : segTry r'.pat.name (c :: cs) with _ | ⟨g1', g2'⟩
    · left; exact segGo_none hskip hm
    · right; exact ⟨g1', g2', rfl, hskip, segGo_matched hskip hm⟩

/-- A rule applied twice to a segment equals the rule applied once. -/
lemma segGo_self {r : Rule} (hwf : wfRule r = true) :
    ∀ (s : List Char) (w : Bool), segGo r w (segGo r w s) = segGo r w s := by
  intro s
  induction s with
  | nil => intro w; rfl
  | cons c cs ih =>
    intro w
    by_cases hskip : (r.pat.wb && w) = true
    · rw [segGo_skip hskip, segGo_skip hskip, ih (pyIsWord c)]
    · rcases hm : segTry r.pat.name (c :: cs) with _ | ⟨g1, g2⟩
      · rw [segGo_none hskip hm]
        rcases segGo_structure r cs (pyIsWord c) with hY | ⟨pre, G1, G2, hcs, hgo, hG1e, hG2ne, _⟩
        · rw [hY, segGo_none hskip hm, hY]
        · obtain ⟨vh, vt, hvv, _⟩ := wf_value_shape hwf
          have hnone2 : segTry r.pat.name (c :: segGo r (pyIsWord c) cs) = none := by
            rw [hgo]
            have hform : c :: (pre ++ G1 ++ r.value) = (c :: (pre ++ G1)) ++ r.value := by
              simp
            rw [hform]
            refine segTry_none_stable (by simp [hG1e]) hG2ne (by rw [hvv]; simp)
              (wf_name_no_eq hwf) ?_
            have hform2 : (c :: (pre ++ G1)) ++ G2 = c :: cs := by rw [hcs]; simp
            rw [hform2]
            exact hm
          rw [segGo_none hskip hnone2, ih (pyIsWord c)]
      · obtain ⟨ws1, wsm, hws1, hwsm, hg1, hg2ne, hseq⟩ := segTry_eq_some hm
        obtain ⟨vh, vt, hvv, hvh⟩ := wf_value_shape hwf
        rw [segGo_matched hskip hm]
        have hpatch : g1 ++ r.value = r.pat.name ++ ws1 ++ '=' :: (wsm ++ vh :: vt) := by
          rw [hg1, hvv]; simp
        have hmatch2 : segTry r.pat.name (g1 ++ r.value) = some (g1, r.value) := by
          rw [hpatch, segTry_patched hws1 hwsm hvh, hg1, hvv]
        obtain ⟨nh, nt, hnn⟩ := List.exists_cons_of_ne_nil (wf_name_ne hwf)
        have hcons : g1 ++ r.value = nh :: (nt ++ ws1 ++ '=' :: (wsm ++ vh :: vt)) := by
          rw [hpatch, hnn]; simp
        rw [hcons] at hmatch2
        rw [hcons, segGo_matched hskip hmatch2]
        exact hcons

/-- Stability under another rule: if `r` is the identity on a segment and `r'`
is pairwise compatible with `r`, then `r` is still the identity after `r'`
has run. -/
lemma segGo_preserve {r r' : Rule} (hwf : wfRule r = true) (hwf' : wfRule r' = true)
    (hso1 : suffOkN r' r.pat.name = true) (hso2 : suffOkN r r'.pat.name = true)
    (hnn : r.pat.name ≠ r'.pat.name) :
    ∀ (s : List Char) (w : Bool), segGo r w s = s →
      segGo r w (segGo r' w s) = segGo r' w s := by
  intro s
  induction s with
  | nil => intro w _; rfl
  | cons c cs ih =>
    intro w H
    -- whenever r' rewrote the head, the whole segment is an r'-patched region
    -- on which r cannot act at all
    have hmatched_case : ∀ g1' g2', segTry r'.pat.name (c :: cs) = some (g1', g2') →
        segGo r w (g1' ++ r'.value) = g1' ++ r'.value := by
      intro g1' g2' hm'
      obtain ⟨ws1', wsm', hws1', hwsm', hg1', hg2ne', hseq'⟩ := segTry_eq_some hm'
      obtain ⟨vh', vt', hvv', hvh'⟩ := wf_value_shape hwf'
      have hpatch : g1' ++ r'.value = r'.pat.name ++ ws1' ++ '=' :: (wsm' ++ vh' :: vt') := by
        rw [hg1', hvv']; simp
      rw [hpatch]
      exact segGo_patched_whole hws1' hwsm'
        (fun d hd => ⟨(wf_name_chars hwf' d hd).1, (wf_name_chars hwf' d hd).2.1⟩)
        (by rw [← hvv']; exact wf_value_no_eq hwf') hwf hso2 hnn w
    by_cases hskipR : (r.pat.wb && w) = true
    · rw [segGo_skip hskipR] at H
      simp only [List.cons.injEq, true_and] at H
      rcases segGo_head_cases r' w c cs with hpass | ⟨g1', g2', hm', _, hgo'⟩
      · rw [hpass, segGo_skip hskipR, ih (pyIsWord c) H]
      · rw [hgo']
        exact hmatched_case g1' g2' hm'
    · rcases hmR : segTry r.pat.name (c :: cs) with _ | ⟨g1, g2⟩
      · rw [segGo_none hskipR hmR] at H
        simp only [List.cons.injEq, true_and] at H
        rcases segGo_head_cases r' w c cs with hpass | ⟨g1', g2', hm', _, hgo'⟩
        · rw [hpass]
          have hnone2 : segTry r.pat.name (c :: segGo r' (pyIsWord c) cs) = none := by
            rcases segGo_structure r' cs (pyIsWord c) with hY | ⟨pre, G1, G2, hcs, hgo, hG1e, hG2ne, _⟩
            · rw [hY]; exact hmR
            · rw [hgo]
              obtain ⟨vh', vt', hvv', _⟩ := wf_value_shape hwf'
              have hform : c :: (pre ++ G1 ++ r'.value) = (c :: (pre ++ G1)) ++ r'.value := by
                simp
              rw [hform]
              refine segTry_none_stable (by simp [hG1e]) hG2ne (by rw [hvv']; simp)
                (wf_name_no_eq hwf) ?_
              have hform2 : (c :: (pre ++ G1)) ++ G2 = c :: cs := by rw [hcs]; simp
              rw [hform2]
              exact hmR
          rw [segGo_none hskipR hnone2, ih (pyIsWord c) H]
        · rw [hgo']
          exact hmatched_case g1' g2' hm'
      · -- r matched the head: the segment is already r-patched; r' cannot act
        rw [segGo_matched hskipR hmR] at H
        obtain ⟨ws1, wsm, hws1, hwsm, hg1, hg2ne, hseq⟩ := segTry_eq_some hmR
        obtain ⟨vh, vt, hvv, hvh⟩ := wf_value_shape hwf
        have hpatch : c :: cs = r.pat.name ++ ws1 ++ '=' :: (wsm ++ vh :: vt) := by
          rw [← H, hg1, hvv]; simp
        have hstay : segGo r' w (c :: cs) = c :: cs := by
          rw [hpatch]
          exact segGo_patched_whole hws1 hwsm
            (fun d hd => ⟨(wf_name_chars hwf d hd).1, (wf_name_chars hwf d hd).2.1⟩)
            (by rw [← hvv]; exact wf_value_no_eq hwf) hwf' hso1 (Ne.symm hnn) w
        rw [hstay, segGo_matched hskipR hmR]
        exact H

/-- Pairwise compatibility: distinct names, and neither name occurs as an
unblocked proper suffix of the other. -/
def rulePairOk (r r' : Rule) : Bool :=
  !(r.pat.name == r'.pat.name) && suffOkN r' r.pat.name && suffOkN r r'.pat.name

/-- Every rule well-formed, every pair compatible. -/
def pairwiseOk : List Rule → Bool
  | [] => true
  | r :: rest => rest.all (fun r' => rulePairOk r r') && pairwiseOk rest

def rulesOk (L : List Rule) : Bool := L.all wfRule && pairwiseOk L

lemma rulePairOk_spec {r r' : Rule} (h : rulePairOk r r' = true) :
    r.pat.name ≠ r'.pat.name ∧ suffOkN r' r.pat.name = true ∧ suffOkN r r'.pat.name = true := by
  unfold rulePairOk at h
  simp only [Bool.and_eq_true, Bool.not_eq_true', beq_eq_false_iff_ne, ne_eq] at h
  exact ⟨h.1.1, h.1.2, h.2⟩

lemma rulesOk_wf {L : List Rule} (h : rulesOk L = true) : ∀ r ∈ L, wfRule r = true := by
  unfold rulesOk at h
  simp only [Bool.and_eq_true, List.all_eq_true] at h
  exact h.1

lemma rulesOk_pairwise {L : List Rule} (h : rulesOk L = true) : pairwiseOk L = true := by
  unfold rulesOk at h
  simp only [Bool.and_eq_true] at h
  exact h.2

lemma segGo_preserve_of_pair {r r' : Rule} (hwf : wfRule r = true) (hwf' : wfRule r' = true)
    (hp : rulePairOk r r' = true) (t : List Char) (H : segGo r false t = t) :
    segGo r false (segGo r' false t) = segGo r' false t := by
  obtain ⟨hnn, hso1, hso2⟩ := rulePairOk_spec hp
  exact segGo_preserve hwf hwf' hso1 hso2 hnn t false H

/-- Once a rule is the identity on a segment, it stays so through any run of
pairwise compatible well-formed rules. -/
lemma pipe_fix : ∀ (L : List Rule) (t : List Char) (r : Rule), wfRule r = true →
    (∀ r' ∈ L, wfRule r' = true) → (∀ r' ∈ L, rulePairOk r r' = true) →
    segGo r false t = t → segGo r false (pipeSeg t L) = pipeSeg t L := by
  intro L
  induction L with
  | nil => intro t r _ _ _ H; exact H
  | cons r₀ L' ih =>
    intro t r hwf hwfL hpair H
    show segGo r false (pipeSeg (segGo r₀ false t) L') = pipeSeg (segGo r₀ false t) L'
    exact ih (segGo r₀ false t) r hwf
      (fun x hx => hwfL x (List.mem_cons_of_mem r₀ hx))
      (fun x hx => hpair x (List.mem_cons_of_mem r₀ hx))
      (segGo_preserve_of_pair hwf (hwfL r₀ (List.mem_cons_self r₀ L'))
        (hpair r₀ (List.mem_cons_self r₀ L')) t H)

/-- After one pass of the full rule list over a segment, every rule of the
list is the identity on the result. -/
lemma pipe_all_fix : ∀ (L : List Rule) (t : List Char), (∀ r ∈ L, wfRule r = true) →
    pairwiseOk L = true → ∀ r ∈ L, segGo r false (pipeSeg t L) = pipeSeg t L := by
  intro L
  induction L with
  | nil => intro t _ _ r hr; simp at hr
  | cons r₀ L' ih =>
    intro t hwfL hpw r hr
    have hpw' : L'.all (fun r' => rulePairOk r₀ r') = true ∧ pairwiseOk L' = true := by
      unfold pairwiseOk at hpw
      simpa [Bool.and_eq_true] using hpw
    show segGo r false (pipeSeg (segGo r₀ false t) L') = pipeSeg (segGo r₀ false t) L'
    rcases List.mem_cons.mp hr with rfl | hmem
    · exact pipe_fix L' (segGo r false t) r
        (hwfL r (List.mem_cons_self r L'))
        (fun x hx => hwfL x (List.mem_cons_of_mem r hx))
        (fun x hx => List.all_eq_true.mp hpw'.1 x hx)
        (segGo_self (hwfL r (List.mem_cons_self r L')) t false)
    · exact ih (segGo r₀ false t)
        (fun x hx => hwfL x (List.mem_cons_of_mem r₀ hx)) hpw'.2 r hmem

lemma pipe_id_of_all : ∀ (L : List Rule) (t : List Char),
    (∀ r ∈ L, segGo r false t = t) → pipeSeg t L = t := by
  intro L
  induction L with
  | nil => intro t _; rfl
  | cons r₀ L' ih =>
    intro t H
    show pipeSeg (segGo r₀ false t) L' = t
    rw [H r₀ (List.mem_cons_self r₀ L')]
    exact ih t (fun x hx => H x (List.mem_cons_of_mem r₀ hx))

/-- Per-segment idempotence of a whole rule-list pass. -/
lemma pipeSeg_idem {L : List Rule} (hok : rulesOk L = true) (t : List Char) :
    pipeSeg (pipeSeg t L) L = pipeSeg t L :=
  pipe_id_of_all L (pipeSeg t L)
    (pipe_all_fix L t (rulesOk_wf hok) (rulesOk_pairwise hok))

lemma pipeSeg_no_semi {L : List Rule} (hv : ∀ r ∈ L, ';' ∉ r.value) :
    ∀ {t : List Char}, ';' ∉ t → ';' ∉ pipeSeg t L := by
  induction L with
  | nil => intro t ht; exact ht
  | cons r₀ L' ih =>
    intro t ht
    show ';' ∉ pipeSeg (segGo r₀ false t) L'
    exact ih (fun x hx => hv x (List.mem_cons_of_mem r₀ hx))
      (segGo_no_semi (hv r₀ (List.mem_cons_self r₀ L')) ht false)

/-- `HighPatcher._apply_content` is idempotent for any well-formed pairwise
compatible rule list. -/
theorem apply_content_idem {L : List Rule} (hok : rulesOk L = true) (s : List Char) :
    apply_content (apply_content s L) L = apply_content s L := by
  have hwf := rulesOk_wf hok
  have hn : ∀ r ∈ L, ';' ∉ r.pat.name := fun r hr => wf_name_no_semi (hwf r hr)
  have hv : ∀ r ∈ L, ';' ∉ r.value := fun r hr => wf_value_no_semi (hwf r hr)
  rw [apply_content_decomp L hn hv s]
  rw [apply_content_decomp L hn hv _]
  rw [splitSemis_joinSemis (mapInit_ne_nil (splitSemis_ne_nil s))
    (mapInit_no_semi (splitSemis_no_semi s) (fun x hx => pipeSeg_no_semi hv hx))]
  rw [mapInit_comp]
  have hfun : (fun x => pipeSeg (pipeSeg x L) L) = fun x => pipeSeg x L :=
    funext (fun x => pipeSeg_idem hok x)
  rw [hfun]

/-- The fallback rule list is well-formed and pairwise compatible. -/
theorem GPU_P_ok : rulesOk GPU_P = true := by decide

/-- The full `'high'` rule list is well-formed and pairwise compatible: all 25
names are distinct, no name occurs as an unblocked proper suffix of another,
and every value is `;`- and `=`-free with a non-whitespace head. -/
theorem highRules_ok : rulesOk highRules = true := by decide

/-- Any rule list leaves a `;`-free text unchanged: every pattern requires a
literal `;` terminator. -/
lemma apply_content_no_semi (L : List Rule) (c : List Char) (h : ';' ∉ c) :
    apply_content c L = c := by
  induction L generalizing c with
  | nil => rfl
  | cons r L' ih =>
    show apply_content (subRule r c) L' = c
    have : subRule r c = c := pySub_no_semi h le_rfl false
    rw [this]
    exact ih c h

/-!  Filesystem model for `HighPatcher`.  Paths are segment lists; a
filesystem is a list of directories and a list of files in a fixed
enumeration order, which also fixes the order `glob.glob` returns.
`readable = false` models a file on which `open(fp, 'r', ...)` raises (for
example `PermissionError`); decoding errors need no modelling because
`errors='ignore'` replaces undecodable bytes with best-effort text instead of
raising, so `content` is the decoded text.  Writing (`open(fp, 'w')` plus
`f.write`) replaces the stored content; the write events are recorded in
order. -/

/-- A filesystem path, as segments. -/
abbrev FPath := List String

structure FSFile where
  path : FPath
  content : List Char
  readable : Bool
  deriving DecidableEq, Repr

structure FSys where
  dirs : List FPath
  files : List FSFile
  deriving DecidableEq, Repr

/-- `glob.glob(os.path.join(dir, '**', pat), recursive=True)`: every file
strictly below `dir` (at any depth, `**` matching zero or more directories)
whose basename is `pat`. -/
def glob (fs : FSys) (dir : FPath) (pat : String) : List FPath :=
  (fs.files.map FSFile.path).filter
    (fun p => dir.isPrefixOf p && decide (dir.length < p.length) && p.getLast? == some pat)

/-- The `'/'.`-joined string form of a path, as `os.path.join` and `glob`
produce it. -/
def pathStr : FPath → List Char
  | [] => []
  | [x] => x.data
  | x :: rest => x.data ++ '/' :: pathStr rest

/-- Python's substring test `needle in haystack`. -/
def strContains : List Char → List Char → Bool
  | [], nee => nee.isEmpty
  | c :: cs, nee => nee.isPrefixOf (c :: cs) || strContains cs nee

lemma strContains_of_infix : ∀ (a nee b : List Char), strContains (a ++ nee ++ b) nee = true := by
  intro a
  induction a with
  | nil =>
    intro nee b
    cases hne : nee ++ b with
    | nil =>
      have hnee : nee = [] := by
        cases nee
        · rfl
        · simp at hne
      have hb : b = [] := by simpa [hnee] using hne
      simp [hnee, hb, strContains]
    | cons c cs =>
      simp only [List.nil_append, hne, strContains, Bool.or_eq_true]
      left
      rw [← hne]
      exact List.isPrefixOf_iff_prefix.mpr ⟨b, rfl⟩
  | cons c a' ih =>
    intro nee b
    simp only [List.cons_append, strContains, Bool.or_eq_true]
    right
    exact ih nee b

/-- A path segment is always a substring of the joined path string. -/
lemma pathStr_contains_seg {p : FPath} {seg : String} (h : seg ∈ p) :
    strContains (pathStr p) seg.data = true := by
  induction p with
  | nil => simp at h
  | cons x rest ih =>
    rcases List.mem_cons.mp h with rfl | hmem
    · cases rest with
      | nil =>
        have : pathStr [seg] = [] ++ seg.data ++ [] := by simp [pathStr]
        rw [this]
        exact strContains_of_infix [] seg.data []
      | cons y rest' =>
        have : pathStr (seg :: y :: rest') = [] ++ seg.data ++ ('/' :: pathStr (y :: rest')) := by
          simp [pathStr]
        rw [this]
        exact strContains_of_infix [] seg.data _
    · have hne : rest ≠ [] := List.ne_nil_of_mem hmem
      obtain ⟨y, rest', rfl⟩ := List.exists_cons_of_ne_nil hne
      have : pathStr (x :: y :: rest') = x.data ++ '/' :: pathStr (y :: rest') := by
        simp [pathStr]
      rw [this]
      obtain ⟨a0, b0, hab⟩ : ∃ a0 b0, pathStr (y :: rest') = a0 ++ seg.data ++ b0 := by
        have hsub := ih hmem
        clear ih
        -- recover an infix witness from strContains
        revert hsub
        generalize pathStr (y :: rest') = hay
        induction hay with
        | nil =>
          intro hsub
          simp only [strContains, List.isEmpty_iff] at hsub
          exact ⟨[], [], by simp [hsub]⟩
        | cons c cs ih2 =>
          intro hsub
          simp only [strContains, Bool.or_eq_true] at hsub
          rcases hsub with hpre | hrec
          · obtain ⟨t, ht⟩ := List.isPrefixOf_iff_prefix.mp hpre
            exact ⟨[], t, by rw [← ht]; simp⟩
          · obtain ⟨a0, b0, hab⟩ := ih2 hrec
            exact ⟨c :: a0, b0, by rw [hab]; simp⟩
      rw [hab]
      have : x.data ++ '/' :: (a0 ++ seg.data ++ b0) =
          (x.data ++ '/' :: a0) ++ seg.data ++ b0 := by simp
      rw [this]
      exact strContains_of_infix _ _ _

namespace HighPatcher

/-- `HighPatcher.CAP_F`. -/
def CAP_F : List String := ["device.c"]

/-- `HighPatcher.EX_D`. -/
def EX_D : List String := ["tests", "demos", "include", ".git"]

/-- `HighPatcher.VER`. -/
def VER : String := "3.0.0"

/-- `HighPatcher._find_files`: glob for the pattern under `src`, then drop
every path whose joined string contains one of `EX_D` as a substring (the
source tests `ex in f` on the path string, not on path segments). -/
def find_files (fs : FSys) (src : FPath) (pat : String) : List FPath :=
  (glob fs src pat).filter (fun f => !(EX_D.any (fun ex => strContains (pathStr f) ex.data)))

/-- The candidate roots probed by `HighPatcher.apply`, in priority order:
`src/libs/vkd3d`, `src/src`, then `src` itself. -/
def vkd3d_dirs (src : FPath) : List FPath :=
  [src ++ ["libs", "vkd3d"], src ++ ["src"], src]

/-- `os.path.isdir`. -/
def isdir (fs : FSys) (d : FPath) : Bool := fs.dirs.contains d

/-- Line 103 of the source: the first candidate that is a directory and has at
least one `device.c` below it; `src` if none qualifies. -/
def target_dir (fs : FSys) (src : FPath) : FPath :=
  ((vkd3d_dirs src).find?
    (fun d => isdir fs d && !(glob fs d "device.c").isEmpty)).getD src

/-- `open(fp, 'r', encoding='utf-8', errors='ignore')` followed by `read()`:
returns the decoded text, or raises (modelled as `Except.error`) when the file
cannot be opened. -/
def readFile (fs : FSys) (p : FPath) : Except Unit (List Char) :=
  match fs.files.find? (fun f => f.path == p) with
  | none => Except.error ()
  | some f => if f.readable then Except.ok f.content else Except.error ()

/-- `open(fp, 'w')` followed by `write`: replace the content stored at `p`. -/
def writeFile (fs : FSys) (p : FPath) (c : List Char) : FSys :=
  { fs with files := fs.files.map (fun f => if f.path == p then { f with content := c } else f) }

/-- The per-file loop body of `HighPatcher.apply` (read, transform, write),
threading the filesystem and the list of write events; an exception
propagates and skips all remaining work. -/
def processFile (patches : List Rule) (acc : Except Unit (FSys × List FPath)) (fp : FPath) :
    Except Unit (FSys × List FPath) :=
  match acc with
  | Except.error e => Except.error e
  | Except.ok (st, ws) =>
    match readFile st fp with
    | Except.error e => Except.error e
    | Except.ok content =>
      Except.ok (writeFile st fp (apply_content content patches), ws ++ [fp])

/-- `HighPatcher.apply` (`self.profile` is passed explicitly): resolve the
target directory, discover the capability files, resolve the profile, patch
every file, and return 0.  The result records the final filesystem and the
ordered write events; an uncaught per-file exception aborts the whole run. -/
def apply (fs : FSys) (profile : String) (src : FPath) :
    Except Unit (FSys × List FPath × Nat) :=
  match (CAP_F.foldl (fun acc cf => acc ++ find_files fs (target_dir fs src) cf) []).foldl
      (processFile (resolveProfile profile)) (Except.ok (fs, [])) with
  | Except.error e => Except.error e
  | Except.ok (st, ws) => Except.ok (st, ws, 0)

/-- Content stored at a path. -/
def fileContent (fs : FSys) (p : FPath) : Option (List Char) :=
  (fs.files.find? (fun f => f.path == p)).map FSFile.content

/-- Number of paths whose stored content differs between two filesystems. -/
def changedCount (fs fs' : FSys) (paths : List FPath) : Nat :=
  (paths.filter (fun p => !(fileContent fs p == fileContent fs' p))).length

end HighPatcher

namespace HighPatcher

lemma cap_files_eq (fs : FSys) (td : FPath) :
    CAP_F.foldl (fun acc cf => acc ++ find_files fs td cf) [] = find_files fs td "device.c" := by
  show [] ++ find_files fs td "device.c" = find_files fs td "device.c"
  simp

lemma fold_error (patches : List Rule) (e : Unit) :
    ∀ files : List FPath, files.foldl (processFile patches) (Except.error e) = Except.error e := by
  intro files
  induction files with
  | nil => rfl
  | cons fp rest ih =>
    show rest.foldl (processFile patches) (processFile patches (Except.error e) fp) =
      Except.error e
    have : processFile patches (Except.error e) fp = Except.error e := rfl
    rw [this]
    exact ih

lemma fold_writes (patches : List Rule) :
    ∀ (files : List FPath) (st0 : FSys) (ws0 : List FPath) (st : FSys) (ws : List FPath),
      files.foldl (processFile patches) (Except.ok (st0, ws0)) = Except.ok (st, ws) →
      ws = ws0 ++ files := by
  intro files
  induction files with
  | nil =>
    intro st0 ws0 st ws h
    simp only [List.foldl_nil, Except.ok.injEq, Prod.mk.injEq] at h
    rw [← h.2]
    simp
  | cons fp rest ih =>
    intro st0 ws0 st ws h
    rw [List.foldl_cons] at h
    rcases hr : readFile st0 fp with e | content
    · have hstep : processFile patches (Except.ok (st0, ws0)) fp = Except.error e := by
        simp only [processFile, hr]
      rw [hstep, fold_error] at h
      exact absurd h (by simp)
    · have hstep : processFile patches (Except.ok (st0, ws0)) fp =
          Except.ok (writeFile st0 fp (apply_content content patches), ws0 ++ [fp]) := by
        simp only [processFile, hr]
      rw [hstep] at h
      have := ih _ _ _ _ h
      rw [this]
      simp

lemma apply_ok_elim {fs : FSys} {profile : String} {src : FPath} {st : FSys}
    {ws : List FPath} {n : Nat} (h : apply fs profile src = Except.ok (st, ws, n)) :
    ws = find_files fs (target_dir fs src) "device.c" ∧ n = 0 := by
  unfold apply at h
  rw [cap_files_eq] at h
  rcases hf : (find_files fs (target_dir fs src) "device.c").foldl
      (processFile (resolveProfile profile)) (Except.ok (fs, [])) with e | ⟨st', ws'⟩
  · rw [hf] at h
    simp at h
  · rw [hf] at h
    simp only [Except.ok.injEq, Prod.mk.injEq] at h
    obtain ⟨h1, h2, h3⟩ := h
    constructor
    · rw [← h2]
      have := fold_writes _ _ _ _ _ _ hf
      rw [this]
      simp
    · exact h3.symm

/-- Every record stored at `p` is unreadable (so `open(p, 'r')` raises). -/
def unreadableAt (fs : FSys) (p : FPath) : Prop :=
  ∀ f ∈ fs.files, f.path = p → f.readable = false

lemma readFile_error_of_unreadable {fs : FSys} {p : FPath} (h : unreadableAt fs p) :
    readFile fs p = Except.error () := by
  unfold readFile
  rcases hf : fs.files.find? (fun f => f.path == p) with _ | f
  · rw [hf]
  · have hmem := List.mem_of_find?_eq_some hf
    have hprop := List.find?_some hf
    have hr : f.readable = false := h f hmem (by simpa using hprop)
    rw [hf]
    simp [hr]

lemma unreadableAt_writeFile {fs : FSys} {p : FPath} (h : unreadableAt fs p)
    (q : FPath) (c : List Char) : unreadableAt (writeFile fs q c) p := by
  intro f hf hp
  unfold writeFile at hf
  simp only [List.mem_map] at hf
  obtain ⟨f0, hf0, hfe⟩ := hf
  by_cases hq : (f0.path == q) = true
  · rw [if_pos hq] at hfe
    rw [← hfe] at hp ⊢
    exact h f0 hf0 hp
  · rw [if_neg hq] at hfe
    rw [← hfe] at hp ⊢
    exact h f0 hf0 hp

lemma fold_error_of_unreadable (patches : List Rule) :
    ∀ (files : List FPath) (st : FSys) (ws : List FPath),
      (∃ p ∈ files, unreadableAt st p) →
      files.foldl (processFile patches) (Except.ok (st, ws)) = Except.error () := by
  intro files
  induction files with
  | nil =>
    intro st ws h
    simp at h
  | cons fp rest ih =>
    intro st ws ⟨p, hp, hun⟩
    rw [List.foldl_cons]
    rcases List.mem_cons.mp hp with rfl | hmem
    · have hstep : processFile patches (Except.ok (st, ws)) p = Except.error () := by
        simp only [processFile, readFile_error_of_unreadable hun]
      rw [hstep, fold_error]
    · rcases hr : readFile st fp with e | content
      · have hstep : processFile patches (Except.ok (st, ws)) fp = Except.error e := by
          simp only [processFile, hr]
        rw [hstep, fold_error]
      · have hstep : processFile patches (Except.ok (st, ws)) fp =
            Except.ok (writeFile st fp (apply_content content patches), ws ++ [fp]) := by
          simp only [processFile, hr]
        rw [hstep]
        exact ih _ _ ⟨p, hmem, unreadableAt_writeFile hun fp _⟩

lemma apply_error_of_unreadable {fs : FSys} (profile : String) {src p : FPath}
    (hp : p ∈ find_files fs (target_dir fs src) "device.c") (hun : unreadableAt fs p) :
    apply fs profile src = Except.error () := by
  unfold apply
  rw [cap_files_eq]
  rw [fold_error_of_unreadable _ _ _ _ ⟨p, hp, hun⟩]

lemma find_files_excludes_dir_segment {fs : FSys} {src : FPath} {pat : String} {p : FPath}
    (h : ∃ seg ∈ p, seg ∈ EX_D) : p ∉ find_files fs src pat := by
  obtain ⟨seg, hsegp, hsegex⟩ := h
  intro hmem
  unfold find_files at hmem
  have hpred := List.of_mem_filter hmem
  simp only [Bool.not_eq_true', List.any_eq_false] at hpred
  have := hpred seg hsegex
  rw [pathStr_contains_seg hsegp] at this
  exact absurd this (by simp)

lemma find_files_keeps {fs : FSys} {src : FPath} {pat : String} {p : FPath}
    (hg : p ∈ glob fs src pat)
    (h : ∀ ex ∈ EX_D, strContains (pathStr p) ex.data = false) :
    p ∈ find_files fs src pat := by
  unfold find_files
  refine List.mem_filter.mpr ⟨hg, ?_⟩
  simp only [Bool.not_eq_true', List.any_eq_false]
  intro x hx
  rw [h x hx]
  simp

lemma find?_append_cons {α : Type} (p : α → Bool) :
    ∀ (pre : List α) (d : α) (post : List α), (∀ x ∈ pre, p x = false) → p d = true →
      (pre ++ d :: post).find? p = some d := by
  intro pre
  induction pre with
  | nil =>
    intro d post _ hd
    simpa using List.find?_cons_of_pos post hd
  | cons x pre' ih =>
    intro d post hpre hd
    have hx : p x = false := hpre x (List.mem_cons_self x pre')
    rw [List.cons_append, List.find?_cons_of_neg _ (by simp [hx])]
    exact ih d post (fun y hy => hpre y (List.mem_cons_of_mem x hy)) hd

end HighPatcher

instance {ε α : Type} [DecidableEq ε] [DecidableEq α] : DecidableEq (Except ε α) := fun a b =>
  match a, b with
  | Except.error e1, Except.error e2 =>
    if h : e1 = e2 then isTrue (h ▸ rfl)
    else isFalse (fun he => h (Except.error.inj he))
  | Except.error _, Except.ok _ => isFalse (fun he => Except.noConfusion he)
  | Except.ok _, Except.error _ => isFalse (fun he => Except.noConfusion he)
  | Except.ok v1, Except.ok v2 =>
    if h : v1 = v2 then isTrue (h ▸ rfl)
    else isFalse (fun he => h (Except.ok.inj he))

/-!  The claims. -/

/-- Test fixture for C1: one readable `device.c` whose content is already in
the target state for every rule of the `'high'` profile. -/
def fsC1 : FSys :=
  ⟨[["r"]], [⟨["r", "device.c"], "adapter_id.vendor_id = 0x1002;\n".data, true⟩]⟩

/-- C1 (counterexample): a file whose content is already in the target state
(applying the full rule list is the identity on it) is still written back —
the run performs a write event for it and reports it patched, rather than
skipping the write. -/
theorem unchanged_file_still_written :
    apply_content "adapter_id.vendor_id = 0x1002;\n".data highRules =
      "adapter_id.vendor_id = 0x1002;\n".data ∧
    HighPatcher.apply fsC1 "high" ["r"] =
      Except.ok (fsC1, [["r", "device.c"]], 0) ∧
    ([["r", "device.c"]] : List FPath) ≠ [] := by
  refine ⟨by decide, by decide, by decide⟩

/-- C1 (amended): the file-level operation writes every discovered (readable)
file back unconditionally — the write list of a successful run is exactly the
discovered file list, with no dependence on whether the text changed. -/
theorem apply_writes_every_discovered_file (fs : FSys) (profile : String) (src : FPath)
    (st : FSys) (ws : List FPath) (n : Nat)
    (h : HighPatcher.apply fs profile src = Except.ok (st, ws, n)) :
    ws = HighPatcher.find_files fs (HighPatcher.target_dir fs src) "device.c" :=
  (HighPatcher.apply_ok_elim h).1

theorem apply_writes_every_discovered_file_witness :
    ([["r", "device.c"]] : List FPath) =
      HighPatcher.find_files fsC1 (HighPatcher.target_dir fsC1 ["r"]) "device.c" :=
  apply_writes_every_discovered_file fsC1 "high" ["r"] fsC1 [["r", "device.c"]] 0 (by decide)

/-- Test fixture for C2: one readable `device.c` that the `'high'` profile
does modify. -/
def fsC2 : FSys :=
  ⟨[["r"]], [⟨["r", "device.c"], "adapter_id.vendor_id = 0x10DE;\n".data, true⟩]⟩

/-- The filesystem after running the patcher on `fsC2`. -/
def fsC2' : FSys :=
  ⟨[["r"]], [⟨["r", "device.c"], "adapter_id.vendor_id = 0x1002;\n".data, true⟩]⟩

/-- C2 (counterexample): a run that modifies exactly one file still returns 0,
not 1 — the return value is not the number of files modified. -/
theorem run_return_is_not_changed_count :
    HighPatcher.apply fsC2 "high" ["r"] = Except.ok (fsC2', [["r", "device.c"]], 0) ∧
    HighPatcher.changedCount fsC2 fsC2' [["r", "device.c"]] = 1 ∧
    (0 : Nat) ≠ 1 := by
  refine ⟨by decide, by decide, by decide⟩

/-- C2 (amended): the top-level run returns 0 on every successful completion,
independently of how many files were modified (0 is the process success
status, not a count). -/
theorem apply_returns_zero (fs : FSys) (profile : String) (src : FPath)
    (st : FSys) (ws : List FPath) (n : Nat)
    (h : HighPatcher.apply fs profile src = Except.ok (st, ws, n)) : n = 0 :=
  (HighPatcher.apply_ok_elim h).2

theorem apply_returns_zero_witness : (0 : Nat) = 0 :=
  apply_returns_zero fsC2 "high" ["r"] fsC2' [["r", "device.c"]] 0 (by decide)

/-- C3: rule application is idempotent for every profile — both the full
`'high'` concatenation and the minimal fallback list that any other profile
name resolves to — and every content text: applying the profile's rules twice
equals applying them once. -/
theorem apply_content_idempotent (profile : String) (c : List Char) :
    apply_content (apply_content c (resolveProfile profile)) (resolveProfile profile) =
      apply_content c (resolveProfile profile) := by
  by_cases h : profile = "high"
  · subst h
    exact apply_content_idem highRules_ok c
  · have he : resolveProfile profile = GPU_P := by
      unfold resolveProfile
      rw [if_neg h]
    rw [he]
    exact apply_content_idem GPU_P_ok c

/-- C4: the variable-assignment pattern generator yields a pattern with the
word boundary (`wb = true`) and the literal (escaped) name; a successful
match captures group 1 as the name plus `=` with its surrounding whitespace
and group 2 as the nonempty value text up to, not including, the next `;`;
concretely, the rule built for `adapter_id.vendor_id` does not match inside
`xadapter_id.vendor_id = 0x1234;` but rewrites
`  adapter_id.vendor_id = 0x5678;`. -/
theorem mk_asgn_groups_and_boundary :
    (∀ n s g1 g2 after : List Char, tryMatchFull n s = some (g1, g2, after) →
      ∃ ws1 wsm, (∀ c ∈ ws1, pyIsSpace c = true) ∧ (∀ c ∈ wsm, pyIsSpace c = true) ∧
        g1 = n ++ ws1 ++ '=' :: wsm ∧ g2 ≠ [] ∧ ';' ∉ g2 ∧
        s = g1 ++ g2 ++ ';' :: after) ∧
    mk_asgn "adapter_id.vendor_id".data = ⟨true, "adapter_id.vendor_id".data⟩ ∧
    subRule ⟨mk_asgn "adapter_id.vendor_id".data, "0x1002".data, "gpu_vid"⟩
      "xadapter_id.vendor_id = 0x1234;".data = "xadapter_id.vendor_id = 0x1234;".data ∧
    subRule ⟨mk_asgn "adapter_id.vendor_id".data, "0x1002".data, "gpu_vid"⟩
      "  adapter_id.vendor_id = 0x5678;".data = "  adapter_id.vendor_id = 0x1002;".data := by
  refine ⟨fun n s g1 g2 after h => tryMatchFull_eq_some h, rfl, by decide, by decide⟩

theorem mk_asgn_groups_and_boundary_witness :
    tryMatchFull "a".data "a = 1;xy".data = some ("a = ".data, "1".data, "xy".data) ∧
    ∃ ws1 wsm, (∀ c ∈ ws1, pyIsSpace c = true) ∧ (∀ c ∈ wsm, pyIsSpace c = true) ∧
      "a = ".data = "a".data ++ ws1 ++ '=' :: wsm ∧ "1".data ≠ [] ∧ ';' ∉ "1".data ∧
      "a = 1;xy".data = "a = ".data ++ "1".data ++ ';' :: "xy".data :=
  ⟨by decide, mk_asgn_groups_and_boundary.1 "a".data "a = 1;xy".data _ _ _ (by decide)⟩

/-- Test fixture for C5: a `device.c` under a directory named `protests`,
which is not an excluded name but contains `tests` as a substring. -/
def fsC5 : FSys := ⟨[["r"]], [⟨["r", "protests", "device.c"], "x".data, true⟩]⟩

/-- C5 (counterexample): a discovered target path that lies under no excluded
directory name is nevertheless removed, because the exclusion test is a
substring test on the joined path string (`"tests"` occurs inside
`"r/protests/device.c"`). -/
theorem find_files_drops_unexcluded_path :
    (["r", "protests", "device.c"] : FPath) ∈ glob fsC5 ["r"] "device.c" ∧
    (∀ seg ∈ (["r", "protests", "device.c"] : FPath), seg ∉ HighPatcher.EX_D) ∧
    (["r", "protests", "device.c"] : FPath) ∉ HighPatcher.find_files fsC5 ["r"] "device.c" := by
  refine ⟨by decide, by decide, by decide⟩

/-- C5 (amended): every globbed path that lies under an excluded directory
name is removed, and every globbed path whose joined string contains none of
the excluded names as a substring is kept — but the filter is the substring
test, so a path may be removed without lying under any excluded directory. -/
theorem find_files_substring_exclusion :
    (∀ (fs : FSys) (src : FPath) (pat : String) (p : FPath),
      (∃ seg ∈ p, seg ∈ HighPatcher.EX_D) → p ∉ HighPatcher.find_files fs src pat) ∧
    (∀ (fs : FSys) (src : FPath) (pat : String) (p : FPath),
      p ∈ glob fs src pat →
      (∀ ex ∈ HighPatcher.EX_D, strContains (pathStr p) ex.data = false) →
      p ∈ HighPatcher.find_files fs src pat) :=
  ⟨fun _ _ _ _ h => HighPatcher.find_files_excludes_dir_segment h,
   fun _ _ _ _ hg h => HighPatcher.find_files_keeps hg h⟩

theorem find_files_substring_exclusion_witness :
    (["r", "tests", "device.c"] : FPath) ∉ HighPatcher.find_files fsC5 ["r"] "device.c" :=
  find_files_substring_exclusion.1 fsC5 ["r"] "device.c" ["r", "tests", "device.c"]
    ⟨"tests", by decide, by decide⟩

/-- Test fixture for C6: two discovered `device.c` files; the first in
enumeration order is unreadable, the second is readable and patchable. -/
def fsC6 : FSys :=
  ⟨[["r"]],
   [⟨["r", "a", "device.c"], "x".data, false⟩,
    ⟨["r", "b", "device.c"], "adapter_id.vendor_id = 0x10DE;".data, true⟩]⟩

/-- C6 (counterexample): with a second, patchable file discovered, a read
error on the first file aborts the whole run (uncaught exception) instead of
skipping the file and continuing. -/
theorem read_error_aborts_run :
    (["r", "b", "device.c"] : FPath) ∈
      HighPatcher.find_files fsC6 (HighPatcher.target_dir fsC6 ["r"]) "device.c" ∧
    HighPatcher.apply fsC6 "high" ["r"] = Except.error () := by
  refine ⟨by decide, by decide⟩

/-- C6 (amended): a read error (for example permission denied) on any single
discovered file makes the whole run abort with the propagated exception; no
remaining file is processed.  Only undecodable bytes are tolerated, by
`errors='ignore'` best-effort decoding. -/
theorem unreadable_discovered_file_aborts (fs : FSys) (profile : String) (src p : FPath)
    (hp : p ∈ HighPatcher.find_files fs (HighPatcher.target_dir fs src) "device.c")
    (hun : HighPatcher.unreadableAt fs p) :
    HighPatcher.apply fs profile src = Except.error () :=
  HighPatcher.apply_error_of_unreadable profile hp hun

theorem unreadable_discovered_file_aborts_witness :
    HighPatcher.apply fsC6 "low" ["r"] = Except.error () :=
  unreadable_discovered_file_aborts fsC6 "low" ["r"] ["r", "a", "device.c"]
    (by decide) (by unfold HighPatcher.unreadableAt; decide)

/-- C7: profile resolution is the pure function `resolveProfile`; every name
other than `"high"` resolves to the documented minimal fallback list `GPU_P`
(device-identity rules only), and `"high"` resolves to the concatenation of
all categories. -/
theorem resolveProfile_fallback :
    (∀ profile : String, profile ≠ "high" → resolveProfile profile = GPU_P) ∧
    resolveProfile "high" =
      GPU_P ++ SM_P ++ WV_P ++ RB_P ++ SO_P ++ MS_P ++ RT_P ++ SF_P ++ TX_P ++ RN_P := by
  constructor
  · intro p hp
    unfold resolveProfile
    rw [if_neg hp]
  · rfl

theorem resolveProfile_fallback_witness : resolveProfile "minimal" = GPU_P :=
  resolveProfile_fallback.1 "minimal" (by decide)

/-- Test fixture for C8: the second candidate `r/src` exists and contains a
target file; the first candidate `r/libs/vkd3d` does not exist. -/
def fsC8 : FSys := ⟨[["r"], ["r", "src"]], [⟨["r", "src", "device.c"], "x".data, true⟩]⟩

/-- C8: discovery probes the fixed priority-ordered candidate list
`[src/libs/vkd3d, src/src, src]` and searches under the first candidate that
is a directory and contains at least one `device.c`; when no candidate
qualifies it falls back to the whole root. -/
theorem target_dir_probe_order :
    (∀ (fs : FSys) (src : FPath),
      (∀ d ∈ HighPatcher.vkd3d_dirs src,
        (HighPatcher.isdir fs d && !(glob fs d "device.c").isEmpty) = false) →
      HighPatcher.target_dir fs src = src) ∧
    (∀ (fs : FSys) (src : FPath) (pre : List FPath) (d : FPath) (post : List FPath),
      HighPatcher.vkd3d_dirs src = pre ++ d :: post →
      (∀ d' ∈ pre, (HighPatcher.isdir fs d' && !(glob fs d' "device.c").isEmpty) = false) →
      (HighPatcher.isdir fs d && !(glob fs d "device.c").isEmpty) = true →
      HighPatcher.target_dir fs src = d) := by
  constructor
  · intro fs src h
    unfold HighPatcher.target_dir
    rw [List.find?_eq_none.mpr (fun x hx => by rw [h x hx]; simp)]
    rfl
  · intro fs src pre d post hsplit hpre hd
    unfold HighPatcher.target_dir
    rw [hsplit, HighPatcher.find?_append_cons _ pre d post hpre hd]
    rfl

theorem target_dir_probe_order_witness :
    HighPatcher.target_dir fsC8 ["r"] = ["r", "src"] :=
  target_dir_probe_order.2 fsC8 ["r"] [["r", "libs", "vkd3d"]] ["r", "src"] [["r"]]
    (by decide) (by decide) (by decide)

/-- C9: rule application is deterministic — `apply_content` is a pure
function of the content and the rule list, so two runs on equal content
strings produce equal results (no run state is involved). -/
theorem apply_content_deterministic (patches : List Rule) (c₁ c₂ : List Char)
    (h : c₁ = c₂) : apply_content c₁ patches = apply_content c₂ patches := by
  rw [h]

theorem apply_content_deterministic_witness :
    apply_content "adapter_id.vendor_id = 0x10DE;".data GPU_P =
      apply_content "adapter_id.vendor_id = 0x10DE;".data GPU_P :=
  apply_content_deterministic GPU_P _ _ rfl

/-- C10: both rule lists the program defines — the full `'high'`
concatenation and the minimal fallback — leave any content without a `;`
unchanged, because every rule's pattern requires a literal `;` terminator. -/
theorem no_semicolon_no_op (c : List Char) (h : ';' ∉ c) :
    apply_content c highRules = c ∧ apply_content c GPU_P = c :=
  ⟨apply_content_no_semi highRules c h, apply_content_no_semi GPU_P c h⟩

theorem no_semicolon_no_op_witness :
    apply_content "adapter_id.vendor_id = 0x10DE".data highRules =
      "adapter_id.vendor_id = 0x10DE".data ∧
    apply_content "adapter_id.vendor_id = 0x10DE".data GPU_P =
      "adapter_id.vendor_id = 0x10DE".data :=
  no_semicolon_no_op "adapter_id.vendor_id = 0x10DE".data (by decide)

end Patcher

